import Mathlib

/-!
Verification of the Minesweeper engine (`model.py`, `views/game_view.py`).

The mutable Python objects are embedded as immutable Lean values:

* the minefield (`self.minefield`, a list of rows of `Cell`s) becomes a
  total function `Grid := Nat → Nat → Cell`, accessed `g y x` exactly as
  the Python indexes `minefield[y][x]`; all stated properties quantify
  only over in-bounds positions;
* in-place cell mutation becomes a functional update (`setCell`);
* the `random.randint` stream driving mine placement becomes an explicit
  list of picked positions;
* save files become lists of byte values (`List Nat`, each < 256).
-/

namespace Minesweeper

/-! ## Definitions: shallow embedding of the engine -/

/-- A minefield cell, mirroring `Model.Cell` (`model.py`): the
`opened`/`mine`/`flagged` bits and the adjacency `number`. -/
structure Cell where
  opened : Bool
  mine : Bool
  flagged : Bool
  number : Nat
deriving DecidableEq

/-- The minefield grid.  `g y x` is `self.minefield[y][x]`. -/
def Grid := Nat → Nat → Cell

/-- The cell produced by `mk_mt_cell` in `Model.mk_mt_minefield`:
`Cell(False, False, False, 0)`. -/
def mk_mt_cell : Cell := ⟨false, false, false, 0⟩

/-- `Model.mk_mt_minefield`: an empty `length × height` minefield.  As a
total function every position holds the empty cell; the dimensions are
kept in the state that carries the grid. -/
def mk_mt_minefield (_length _height : Nat) : Grid := fun _ _ => mk_mt_cell

/-- Functional update of one grid position
(`self.minefield[y][x] = cell`). -/
def setCell (g : Grid) (y x : Nat) (c : Cell) : Grid :=
  fun y' x' => if y' = y ∧ x' = x then c else g y' x'

/-- Membership of `(x, y)` in the clipped 3×3 box centred at
`(x_pos, y_pos)` on an `x_max × y_max` grid: exactly the index range of
the double loop in `Model.increment_numbers` (and of the quick-flag /
quick-open loops in `game_view.py`), with the call sites' `x_min = y_min
= 0` already substituted.  Note the centre itself is a member. -/
def inBox (x_pos y_pos x_max y_max x y : Nat) : Prop :=
  (max 0 (x_pos - 1) ≤ x ∧ x < min (x_max - 1) (x_pos + 1) + 1) ∧
  (max 0 (y_pos - 1) ≤ y ∧ y < min (y_max - 1) (y_pos + 1) + 1)

instance inBox.instDecidable (a b c d e f : Nat) : Decidable (inBox a b c d e f) := by
  unfold inBox; infer_instance

/-- `Model.increment_numbers`: adds one to the `number` of every cell in
the clipped 3×3 box centred at `(x_pos, y_pos)`, the centre included.
The Python lower bound `max(x_min, x_pos - 1)` coincides with the Nat
truncated subtraction used here because every call site in the source
passes `x_min = y_min = 0`. -/
def increment_numbers (g : Grid) (x_pos y_pos x_min y_min x_max y_max : Nat) : Grid :=
  fun y x =>
    if (max x_min (x_pos - 1) ≤ x ∧ x < min (x_max - 1) (x_pos + 1) + 1) ∧
       (max y_min (y_pos - 1) ≤ y ∧ y < min (y_max - 1) (y_pos + 1) + 1) then
      { g y x with number := (g y x).number + 1 }
    else g y x

/-- The `Option` namedtuple of `utility.py` (fields `l`, `h`, `d`); named
`MOption` here only because `Option` is taken by the Lean core library. -/
structure MOption where
  l : Nat
  h : Nat
  d : Nat
deriving DecidableEq

/-- Rounding of the rational `a / b` (`b > 0`) to the nearest integer
with ties to even: `q` or `q + 1`, with `q` the floor quotient, chosen
by comparing twice the remainder against `b`. -/
def round_half_even (a b : Nat) : Nat :=
  let q := a / b
  let r := a % b
  if 2 * r < b then q
  else if b < 2 * r then q + 1
  else if q % 2 = 0 then q else q + 1

/-- Floor of the base-2 logarithm of `n` (second argument), by fueled
structural recursion; fuel `n` always suffices because the argument
halves at every step. -/
def log2floor : Nat → Nat → Nat
  | 0, _ => 0
  | fuel + 1, n => if n < 2 then 0 else log2floor fuel (n / 2) + 1

/-- `math.floor(n / 100)` as CPython evaluates it on `int` operands:
true division (`long_true_divide`) returns the IEEE-754 double nearest
to the exact quotient, ties to even, and `math.floor` then takes that
double's exact integer floor.  With `t` the binade exponent of `n / 100`
(so `2^t ≤ n/100 < 2^(t+1)` when `n/100 ≥ 1`), the correctly rounded
double is `M · 2^(t-52)` where the mantissa `M` is the round-half-even
quotient carrying 53 bits of precision; for `t ≤ 52` the floor shifts
the mantissa back down, for `t > 52` the double is itself an integer.
For `n < 100` the quotient lies in `[0, 0.99]`, is rounded far from `1`,
and floors to `0`.  The model is exact wherever the Python call returns
at all; only for astronomical `n` (quotients reaching `2^1024`) does
CPython instead raise `OverflowError`, a region no constructible option
approaches. -/
def floor_div100_float (n : Nat) : Nat :=
  let q := n / 100
  if q = 0 then 0
  else
    let t := log2floor q q
    if t ≤ 52 then
      round_half_even (n * 2 ^ (52 - t)) 100 / 2 ^ (52 - t)
    else
      round_half_even n (100 * 2 ^ (t - 52)) * 2 ^ (t - 52)

/-- `Model.calculate_mines`.  The Python computes
`math.floor(option.l * option.h * option.d / 100)` — `int` float
division then floor, modelled bit-exactly by `floor_div100_float` —
and clamps the result to `[min_mines, max_mines] = [1, l·h - 1]`. -/
def calculate_mines (option : MOption) : Nat :=
  let min_mines := 1
  let max_mines := option.l * option.h - 1
  let raw_mines := floor_div100_float (option.l * option.h * option.d)
  min max_mines (max min_mines raw_mines)

/-- The slice of the `Model` object state that `generate_minefield`,
`save_minefield` and `load_minefield` read and write (the float
`gen_progress` UI-feedback percentage is the one mutated field left out:
no claim concerns it and nothing else reads it). -/
structure ModelState where
  minefield : Grid
  difficulty : MOption
  hover_x : Nat
  hover_y : Nat
  num_mines : Nat
  num_flagged : Nat

/-- The mine-placing `while` loop of `Model.generate_minefield`: each
pick `(x_pos, y_pos)` (one `random.randint` pair per iteration) is
skipped when the cell is already a mine, otherwise the cell's mine bit is
set and the surrounding numbers are incremented.  `some` is returned when
`mines_left` reaches zero, `none` when the pick stream is exhausted
first. -/
def gen_loop (length height : Nat) : List (Nat × Nat) → Grid → Nat → Option Grid
  | _, g, 0 => some g
  | [], _, _ + 1 => none
  | (x_pos, y_pos) :: picks, g, mines_left + 1 =>
    if (g y_pos x_pos).mine then
      gen_loop length height picks g (mines_left + 1)
    else
      gen_loop length height picks
        (increment_numbers
          (setCell g y_pos x_pos { g y_pos x_pos with mine := true })
          x_pos y_pos 0 0 length height)
        mines_left

/-- `Model.generate_minefield`, parameterised by the random pick stream:
builds an empty field, places `calculate_mines difficulty` mines through
`gen_loop`, and resets the counters and the hover position. -/
def generate_minefield (difficulty : MOption) (picks : List (Nat × Nat)) :
    Option ModelState :=
  let length := difficulty.l
  let height := difficulty.h
  let mines := calculate_mines difficulty
  (gen_loop length height picks (mk_mt_minefield length height) mines).map fun g =>
    { minefield := g, difficulty := difficulty, hover_x := 0, hover_y := 0,
      num_mines := mines, num_flagged := 0 }

/-- Count of mines in the clipped 3×3 box centred at `(x, y)`, the
centre cell included: the quantity `increment_numbers` accumulates. -/
def mineCountIncl (g : Grid) (l h x y : Nat) : Nat :=
  ∑ y' ∈ Finset.range h, ∑ x' ∈ Finset.range l,
    if inBox x y l h x' y' ∧ (g y' x').mine then 1 else 0

/-- Count of mines in the clipped 8-neighbourhood of `(x, y)` — the
clipped 3×3 box with the centre cell excluded — as the spec words it. -/
def mineCountExcl (g : Grid) (l h x y : Nat) : Nat :=
  ∑ y' ∈ Finset.range h, ∑ x' ∈ Finset.range l,
    if inBox x y l h x' y' ∧ (g y' x').mine ∧ ¬(x' = x ∧ y' = y) then 1 else 0

/-- The invariant `generate_minefield` and `load_minefield` maintain:
every cell's `number` equals the number of grid mines whose clipped 3×3
increment box contains the cell. -/
def numbersFromMines (g : Grid) (l h : Nat) : Prop :=
  ∀ x y, (g y x).number =
    ∑ y' ∈ Finset.range h, ∑ x' ∈ Finset.range l,
      if (g y' x').mine ∧ inBox x' y' l h x y then 1 else 0

/-- The `State` enum of `utility.py`. -/
inductive State where
  | RUNNING
  | WON
  | LOST
deriving DecidableEq

/-- The slice of `GameView` object state that `toggle_flag` and
`open_cell` read and write: the minefield and difficulty shared with the
model, the cursor, the two counters and the game state.  (The UI widgets
the Python methods also refresh are not modelled.) -/
structure GameView where
  minefield : Grid
  difficulty : MOption
  hover_x : Nat
  hover_y : Nat
  num_mines : Nat
  num_flagged : Nat
  state : State

/-- Python `range(a, b)` (empty when `b ≤ a`). -/
def pyRange (a b : Nat) : List Nat := List.range' a (b - a)

/-- The clipped 3×3 iteration `for x_near in range(*xbound): for y_near
in range(*ybound)` shared by the quick-flag, quick-open and flood-fill
neighbour loops of `game_view.py`, producing `Point(x_near, y_near)`
pairs in loop order. -/
def boxPoints (l h cx cy : Nat) : List (Nat × Nat) :=
  (pyRange (max 0 (cx - 1)) (min (l - 1) (cx + 1) + 1)).flatMap fun x_near =>
    (pyRange (max 0 (cy - 1)) (min (h - 1) (cy + 1) + 1)).map fun y_near =>
      (x_near, y_near)

/-- The body of the `for point in cell_mound` flag loop at the end of
`GameView.toggle_flag`: skip already-flagged points, otherwise bump
`num_flagged` and set the flag. -/
def flag_step (acc : Grid × Nat) (p : Nat × Nat) : Grid × Nat :=
  if (acc.1 p.2 p.1).flagged then acc
  else (setCell acc.1 p.2 p.1 { acc.1 p.2 p.1 with flagged := true }, acc.2 + 1)

/-- `GameView.toggle_flag`.  On an unopened hovered cell, flip its flag
and adjust `num_flagged`; on an opened one, quick-flag: when the number
of unopened cells in the clipped 3×3 box equals the hovered cell's
`number`, flag every unopened unflagged box cell, counting each newly
flagged one. -/
def toggle_flag (v : GameView) : GameView :=
  if v.state = State.WON ∨ v.state = State.LOST then v
  else
    let hovered_cell := v.minefield v.hover_y v.hover_x
    if ¬hovered_cell.opened then
      if hovered_cell.flagged then
        { v with num_flagged := v.num_flagged - 1,
                 minefield := setCell v.minefield v.hover_y v.hover_x
                   { hovered_cell with flagged := false } }
      else
        { v with num_flagged := v.num_flagged + 1,
                 minefield := setCell v.minefield v.hover_y v.hover_x
                   { hovered_cell with flagged := true } }
    else
      let pts := boxPoints v.difficulty.l v.difficulty.h v.hover_x v.hover_y
      let unopened := (pts.filter fun p => !(v.minefield p.2 p.1).opened).length
      let temp_mound := pts.filter fun p =>
        !(v.minefield p.2 p.1).opened && !(v.minefield p.2 p.1).flagged
      let cell_mound := if unopened = hovered_cell.number then temp_mound else []
      let r := cell_mound.foldl flag_step (v.minefield, v.num_flagged)
      { v with minefield := r.1, num_flagged := r.2 }

/-- The win-condition scan at the end of `GameView.open_cell`: every cell
is opened or a mine. -/
def checkWon (g : Grid) (l h : Nat) : Bool :=
  (List.range h).all fun y => (List.range l).all fun x =>
    (g y x).opened || (g y x).mine

/-- The initial `cell_mound` worklist of `GameView.open_cell`: the
quick-open neighbours (when the hovered cell is opened and its flagged
neighbour count matches its `number`) followed by the hovered point. -/
def open_seed (v : GameView) : List (Nat × Nat) :=
  (if (v.minefield v.hover_y v.hover_x).opened then
    let pts := boxPoints v.difficulty.l v.difficulty.h v.hover_x v.hover_y
    let flagged_count := (pts.filter fun p => (v.minefield p.2 p.1).flagged).length
    let temp_mound := pts.filter fun p =>
      !(v.minefield p.2 p.1).opened && !(v.minefield p.2 p.1).flagged
    if flagged_count = (v.minefield v.hover_y v.hover_x).number then temp_mound
    else []
  else []) ++ [(v.hover_x, v.hover_y)]

/-- The `while mound_position < len(cell_mound)` flood-fill loop of
`GameView.open_cell`, with an explicit fuel parameter standing in for the
Python loop's unbounded iteration (the termination theorem shows the
fuel `open_cell` passes is never exhausted).  Returns the grid, whether a
mine was opened (the early `return` on loss), and the list of points
actually opened, in order. -/
def open_loop (l h : Nat) : Nat → Grid → List (Nat × Nat) → Nat → List (Nat × Nat) →
    Option (Grid × Bool × List (Nat × Nat))
  | 0, _, _, _, _ => none
  | fuel + 1, g, cell_mound, mound_position, log =>
    if hp : mound_position < cell_mound.length then
      let point := cell_mound.get ⟨mound_position, hp⟩
      if (g point.2 point.1).opened then
        open_loop l h fuel g cell_mound (mound_position + 1) log
      else
        let g' := setCell g point.2 point.1 { g point.2 point.1 with opened := true }
        if (g' point.2 point.1).mine then some (g', true, log ++ [point])
        else if (g' point.2 point.1).number = 0 then
          open_loop l h fuel g'
            (cell_mound ++ ((boxPoints l h point.1 point.2).filter fun q =>
              !(g' q.2 q.1).opened && !(g' q.2 q.1).flagged))
            (mound_position + 1) (log ++ [point])
        else
          open_loop l h fuel g' cell_mound (mound_position + 1) (log ++ [point])
    else some (g, false, log)

/-- Fuel passed to `open_loop` by `open_cell`; strictly larger than the
loop measure `9 · #unopened-cells + #worklist-remainder`, so the fuelled
loop behaves as the Python unbounded loop (see the termination
theorem). -/
def open_fuel (v : GameView) : Nat :=
  9 * (v.difficulty.l * v.difficulty.h) + (open_seed v).length + 1

/-- `GameView.open_cell`: no-op on terminal state or a flagged hovered
cell; otherwise quick-open seeding, flood fill, loss on opening a mine,
and the win-condition scan. -/
def open_cell (v : GameView) : GameView :=
  if v.state = State.WON ∨ v.state = State.LOST then v
  else if (v.minefield v.hover_y v.hover_x).flagged then v
  else
    match open_loop v.difficulty.l v.difficulty.h (open_fuel v) v.minefield
        (open_seed v) 0 [] with
    | none => v
    | some (g, lost, _) =>
      if lost then { v with minefield := g, state := State.LOST }
      else if checkWon g v.difficulty.l v.difficulty.h then
        { v with minefield := g, state := State.WON }
      else { v with minefield := g }

/-- Count of unopened cells of the in-bounds grid (the flood-fill loop
measure). -/
def unopenedCount (g : Grid) (l h : Nat) : Nat :=
  ∑ y ∈ Finset.range h, ∑ x ∈ Finset.range l, if (g y x).opened then 0 else 1

/-- The count C5 speaks about: unopened cells (flagged or not) in the
clipped 8-neighbourhood of `(x, y)` — the clipped 3×3 box minus the
centre cell. -/
def unopenedNeighborCount (g : Grid) (l h x y : Nat) : Nat :=
  ((boxPoints l h x y).filter fun p =>
    !(g p.2 p.1).opened && !(p.1 == x && p.2 == y)).length

/-- A concrete 1×1 all-empty RUNNING board, used as witness input. -/
def oneCellView : GameView :=
  { minefield := fun _ _ => mk_mt_cell, difficulty := ⟨1, 1, 50⟩,
    hover_x := 0, hover_y := 0, num_mines := 0, num_flagged := 0,
    state := State.RUNNING }

/-- The C9 invariant: no grid cell is simultaneously opened and
flagged. -/
def noOpenFlagged (g : Grid) : Prop :=
  ∀ y x, ¬((g y x).opened = true ∧ (g y x).flagged = true)

/-- Python `v.to_bytes(w, "big")` (defined for `v < 256 ^ w`):
most-significant byte first. -/
def to_bytes (w v : Nat) : List Nat :=
  (List.range w).map fun i => (v >>> (8 * (w - 1 - i))) % 256

/-- Python `int.from_bytes(bs, "big")`. -/
def from_bytes (bs : List Nat) : Nat :=
  bs.foldl (fun acc b => acc * 256 + b) 0

/-- The 3-bit record `(opened << 2) | (mine << 1) | flagged` a cell is
saved as (Python bools read as the ints 0/1). -/
def cell_flags (c : Cell) : Nat :=
  ((cond c.opened 1 0) <<< 2) ||| ((cond c.mine 1 0) <<< 1) ||| cond c.flagged 1 0

/-- The value of the 3-byte buffer `Model.save_minefield` writes for
block `b`: the inner `for buffer_index in range(8)` loop, which ORs the
records of cells `8·b + buffer_index` (clipped at `n`, matching the
loop's `break`) into bit positions `3·(7 − buffer_index)`. -/
def save_block (m : ModelState) (length n b : Nat) : Nat :=
  (List.range 8).foldl
    (fun buffer buffer_index =>
      if 8 * b + buffer_index < n then
        buffer |||
          (cell_flags (m.minefield ((8 * b + buffer_index) / length)
              ((8 * b + buffer_index) % length)) <<< (3 * (7 - buffer_index)))
      else buffer)
    0

/-- `Model.save_minefield`, as the byte stream written to the save file:
the 5-byte big-endian header packing `length-1`, `height-1`, `hover_x`,
`hover_y` as four masked 10-bit fields, then one 3-byte block per outer
`while` iteration — the loop advances `current` by up to 8 cells per
iteration, so it writes exactly `⌈n/8⌉` blocks (`n = length · height`,
called `num_mines` in the source). -/
def save_minefield (m : ModelState) : List Nat :=
  let length := m.difficulty.l
  let height := m.difficulty.h
  let hover_x := m.hover_x
  let hover_y := m.hover_y
  let piece_a := ((length - 1) &&& 0x3FF) <<< 30
  let piece_b := ((height - 1) &&& 0x3FF) <<< 20
  let piece_c := (hover_x &&& 0x3FF) <<< 10
  let piece_d := hover_y &&& 0x3FF
  let combined := piece_a ||| piece_b ||| piece_c ||| piece_d
  let bin_header := to_bytes 5 combined
  let num_mines := length * height
  bin_header ++
    ((List.range ((num_mines + 7) / 8)).map fun b =>
      to_bytes 3 (save_block m length num_mines b)).flatten

/-- One iteration of the cell-extraction loop of `Model.load_minefield`
for cell index `i`: re-reads the 3-byte buffer of block `i / 8` (the
Python reads it once per 8 cells; the value is the same), extracts the
3-bit record, writes the cell (keeping the `number` accumulated so far),
counts flags and mines as 0/1 ints, and increments the numbers around a
mine. -/
def load_cell_step (file : List Nat) (length height : Nat)
    (acc : Grid × Nat × Nat) (i : Nat) : Grid × Nat × Nat :=
  let g := acc.1
  let buffer := from_bytes ((file.drop (5 + 3 * (i / 8))).take 3)
  let flags_bits := (buffer >>> (3 * (7 - i % 8))) &&& 0x7
  let flagged := flags_bits &&& 0x1
  let mine := (flags_bits >>> 1) &&& 0x1
  let opened := (flags_bits >>> 2) &&& 0x1
  let y_pos := i / length
  let x_pos := i % length
  let cell : Cell := ⟨opened != 0, mine != 0, flagged != 0, (g y_pos x_pos).number⟩
  let g' := setCell g y_pos x_pos cell
  let g'' := if mine = 1 then increment_numbers g' x_pos y_pos 0 0 length height else g'
  (g'', acc.2.1 + mine, acc.2.2 + flagged)

/-- The first `k` iterations of `load_minefield`'s cell loop, starting
from the empty grid and zeroed counters. -/
def load_fold (file : List Nat) (length height k : Nat) : Grid × Nat × Nat :=
  (List.range k).foldl (load_cell_step file length height)
    (mk_mt_minefield length height, 0, 0)

/-- `Model.load_minefield`.  `none` stands for `has_saved_game()` being
false, in which case the method returns at once leaving the model as it
was.  Otherwise: parse the header, rebuild an empty grid, scan the
`length · height` cell records (recomputing numbers and counters), and
induce the difficulty with the source's expression
`(num_mines * 100) // length * height` (which, by precedence, divides by
`length` and then multiplies by `height`). -/
def load_minefield (saved : Option (List Nat)) (m : ModelState) : ModelState :=
  match saved with
  | none => m
  | some file =>
    let header := from_bytes (file.take 5)
    let hover_y := header &&& 0x3FF
    let hover_x := (header >>> 10) &&& 0x3FF
    let height := ((header >>> 20) &&& 0x3FF) + 1
    let length := ((header >>> 30) &&& 0x3FF) + 1
    let num_mines := length * height
    let r := load_fold file length height num_mines
    let density := r.2.1 * 100 / length * height
    { minefield := r.1, difficulty := ⟨length, height, density⟩,
      hover_x := hover_x, hover_y := hover_y,
      num_mines := r.2.1, num_flagged := r.2.2 }

/-- The 3-bit record of cell `i` as `load_minefield` reads it back from
a byte stream. -/
def recFlags (file : List Nat) (i : Nat) : Nat :=
  (from_bytes ((file.drop (5 + 3 * (i / 8))).take 3) >>> (3 * (7 - i % 8))) &&& 0x7

/-- A concrete 2×2 one-mine field (mine at `(0, 0)`, all numbers
consistent) used as witness input for the serializer claims. -/
def twoByTwoModel : ModelState :=
  { minefield := fun y x =>
      if y = 0 ∧ x = 0 then ⟨false, true, false, 1⟩ else ⟨false, false, false, 1⟩,
    difficulty := ⟨2, 2, 25⟩, hover_x := 0, hover_y := 0,
    num_mines := 1, num_flagged := 0 }

/-! ## Lemmas and claim theorems -/

lemma round_half_even_eq (a b : Nat) : round_half_even a b =
    if 2 * (a % b) < b then a / b
    else if b < 2 * (a % b) then a / b + 1
    else if a / b % 2 = 0 then a / b else a / b + 1 := rfl

lemma rhe_core (b q r : Nat) (hr : r < b) :
    2 * b * (if 2 * r < b then q else if b < 2 * r then q + 1
      else if q % 2 = 0 then q else q + 1) ≤ 2 * (b * q + r) + b ∧
    2 * (b * q + r) ≤ 2 * b * (if 2 * r < b then q else if b < 2 * r then q + 1
      else if q % 2 = 0 then q else q + 1) + b := by
  split_ifs <;> constructor <;> nlinarith

/-- Half-ulp error bound of round-to-nearest: `b · round_half_even a b`
differs from `a` by at most `b / 2` either way. -/
lemma round_half_even_err (a b : Nat) (hb : 0 < b) :
    2 * b * round_half_even a b ≤ 2 * a + b ∧
      2 * a ≤ 2 * b * round_half_even a b + b := by
  have h := rhe_core b (a / b) (a % b) (Nat.mod_lt _ hb)
  rw [Nat.div_add_mod] at h
  rw [round_half_even_eq]
  exact h

lemma log2floor_spec (fuel : Nat) : ∀ n, 1 ≤ n → n ≤ fuel →
    2 ^ log2floor fuel n ≤ n ∧ n < 2 ^ (log2floor fuel n + 1) := by
  induction fuel with
  | zero => intro n h1 h2; omega
  | succ fuel ih =>
    intro n h1 h2
    show 2 ^ (if n < 2 then 0 else log2floor fuel (n / 2) + 1) ≤ n ∧
      n < 2 ^ ((if n < 2 then 0 else log2floor fuel (n / 2) + 1) + 1)
    by_cases hn : n < 2
    · rw [if_pos hn]; simp; omega
    · rw [if_neg hn]
      have h2' : n / 2 ≤ fuel := by omega
      have h1' : 1 ≤ n / 2 := by omega
      obtain ⟨hlo, hhi⟩ := ih (n / 2) h1' h2'
      constructor
      · rw [pow_succ]
        omega
      · rw [pow_succ, pow_succ] at *
        omega

/-- Below `100 · 2^47` the correctly rounded float quotient floors to the
exact rational floor: the scale factor `2^(52-t)` is at least `2^6 = 64`,
so the half-ulp rounding error of at most `50 / 2^(52-t)` (in units of
the quotient) can never carry the value across an integer, whose distance
from any non-integer hundredth is at least `1/100`. -/
lemma floor_div100_float_eq (n : Nat) (h : n < 100 * 2 ^ 47) :
    floor_div100_float n = n / 100 := by
  show (if n / 100 = 0 then 0
    else if log2floor (n / 100) (n / 100) ≤ 52 then
      round_half_even (n * 2 ^ (52 - log2floor (n / 100) (n / 100))) 100 /
        2 ^ (52 - log2floor (n / 100) (n / 100))
    else round_half_even n (100 * 2 ^ (log2floor (n / 100) (n / 100) - 52)) *
        2 ^ (log2floor (n / 100) (n / 100) - 52)) = n / 100
  by_cases hq : n / 100 = 0
  · rw [if_pos hq, hq]
  · rw [if_neg hq]
    obtain ⟨hlo, hhi⟩ := log2floor_spec (n / 100) (n / 100) (by omega) (le_refl _)
    have ht : log2floor (n / 100) (n / 100) ≤ 46 := by
      by_contra hc
      have h47 : (2 : Nat) ^ 47 ≤ 2 ^ log2floor (n / 100) (n / 100) :=
        Nat.pow_le_pow_right (by norm_num) (by omega)
      omega
    rw [if_pos (by omega : log2floor (n / 100) (n / 100) ≤ 52)]
    generalize hL : 52 - log2floor (n / 100) (n / 100) = s
    have hs : 6 ≤ s := by omega
    have hA : 64 ≤ 2 ^ s := by
      calc (64 : Nat) = 2 ^ 6 := by norm_num
      _ ≤ 2 ^ s := Nat.pow_le_pow_right (by norm_num) hs
    generalize hA2 : (2 : Nat) ^ s = A at hA ⊢
    obtain ⟨he1, he2⟩ := round_half_even_err (n * A) 100 (by norm_num)
    have key : n * A = 100 * (n / 100 * A) + n % 100 * A := by
      conv_lhs => rw [← Nat.div_add_mod n 100]
      ring
    have hrA : n % 100 * A ≤ 99 * A := Nat.mul_le_mul_right _ (by omega)
    refine Nat.div_eq_of_lt_le ?_ ?_
    · omega
    · have hplus : (n / 100 + 1) * A = n / 100 * A + A := by ring
      rw [hplus]
      omega

/-- C3 (amended): float rounding breaks the claimed exact-floor formula
on the claim's unbounded domain — see the counterexample below — but on
every option the program can actually build (both dimensions at most
`1024`, the custom-input maximums of `model.py`) the product stays below
`2^27`, the rounded quotient floors exactly, and the claim holds:
`calculate_mines` returns `min (l·h - 1) (max 1 (l·h·d / 100))`, which
lies in `[1, l·h - 1]`. -/
theorem calculate_mines_spec (o : MOption) (hl : 1 ≤ o.l) (hlmax : o.l ≤ 1024)
    (hh : 1 ≤ o.h) (hhmax : o.h ≤ 1024) (hlh : 2 ≤ o.l * o.h) (hd : o.d ≤ 100) :
    calculate_mines o = min (o.l * o.h - 1) (max 1 (o.l * o.h * o.d / 100)) ∧
    1 ≤ calculate_mines o ∧ calculate_mines o ≤ o.l * o.h - 1 := by
  have hn : o.l * o.h * o.d < 100 * 2 ^ 47 := by
    calc o.l * o.h * o.d ≤ 1024 * 1024 * 100 :=
          Nat.mul_le_mul (Nat.mul_le_mul hlmax hhmax) hd
    _ < 100 * 2 ^ 47 := by norm_num
  have he : calculate_mines o =
      min (o.l * o.h - 1) (max 1 (o.l * o.h * o.d / 100)) := by
    show min (o.l * o.h - 1) (max 1 (floor_div100_float (o.l * o.h * o.d))) = _
    rw [floor_div100_float_eq _ hn]
  refine ⟨he, ?_, ?_⟩ <;>
  · rw [he]
    generalize o.l * o.h * o.d / 100 = r at *
    generalize o.l * o.h = m at *
    omega

/-- Counterexample to C3 as stated: at `Option(18014398509481799, 1, 1)`
— inside the claim's domain `l ≥ 1`, `h ≥ 1`, `l·h ≥ 2`, `d ≤ 100` — the
claimed formula gives the exact floor `180143985094817`, but true
division rounds the quotient `180143985094817.99` up to the nearest
double `180143985094818.0`, so the code returns `180143985094818`. -/
theorem calculate_mines_float_cex :
    calculate_mines ⟨18014398509481799, 1, 1⟩ = 180143985094818 ∧
      min (18014398509481799 * 1 - 1)
        (max 1 (18014398509481799 * 1 * 1 / 100)) = 180143985094817 := by
  constructor
  · decide
  · decide

/-- Witness for the amended C3 at `Option(3, 1, 100)`: the result is `2`,
inside `[1, 3·1 − 1]`. -/
theorem calculate_mines_spec_witness :
    calculate_mines ⟨3, 1, 100⟩ = 2 ∧ 1 ≤ calculate_mines ⟨3, 1, 100⟩ ∧
      calculate_mines ⟨3, 1, 100⟩ ≤ 3 * 1 - 1 := by
  have h := calculate_mines_spec ⟨3, 1, 100⟩ (by decide) (by decide) (by decide)
    (by decide) (by decide) (by decide)
  exact ⟨by decide, h.2.1, h.2.2⟩

lemma sum_indicator_point {α : Type} [DecidableEq α] (s : Finset α) (b : α)
    (hb : b ∈ s) (c : Prop) [Decidable c] :
    (∑ a ∈ s, if a = b ∧ c then (1 : Nat) else 0) = if c then 1 else 0 := by
  rw [Finset.sum_congr rfl
    (g := fun a => if a = b then (if c then (1 : Nat) else 0) else 0)
    (fun a _ => by by_cases h1 : a = b <;> by_cases h2 : c <;> simp [h1, h2])]
  rw [Finset.sum_ite_eq' s b fun _ => if c then (1 : Nat) else 0]
  simp [hb]

lemma sum_point_double (l h qx qy : Nat) (hx : qx < l) (hy : qy < h)
    (c : Prop) [Decidable c] :
    (∑ y' ∈ Finset.range h, ∑ x' ∈ Finset.range l,
      if x' = qx ∧ y' = qy ∧ c then (1 : Nat) else 0) = if c then 1 else 0 := by
  have hinner : ∀ y', (∑ x' ∈ Finset.range l,
      if x' = qx ∧ y' = qy ∧ c then (1 : Nat) else 0) = if y' = qy ∧ c then 1 else 0 :=
    fun y' => sum_indicator_point (Finset.range l) qx (Finset.mem_range.2 hx) _
  rw [Finset.sum_congr rfl fun y' _ => hinner y']
  exact sum_indicator_point (Finset.range h) qy (Finset.mem_range.2 hy) c

lemma setCell_eval (g : Grid) (y x : Nat) (c : Cell) (y' x' : Nat) :
    setCell g y x c y' x' = if y' = y ∧ x' = x then c else g y' x' := rfl

lemma increment_numbers_eval (g : Grid) (cx cy l h y x : Nat) :
    increment_numbers g cx cy 0 0 l h y x =
      if inBox cx cy l h x y then { g y x with number := (g y x).number + 1 }
      else g y x := by
  unfold increment_numbers inBox
  rfl

lemma inBox_symm {l h x y x' y' : Nat} (hx : x < l) (hy : y < h)
    (hx' : x' < l) (hy' : y' < h) :
    inBox x' y' l h x y ↔ inBox x y l h x' y' := by
  unfold inBox; omega

lemma inBox_self {l h x y : Nat} (hx : x < l) (hy : y < h) : inBox x y l h x y := by
  unfold inBox; omega

/-- Placing one new mine (the body of `generate_minefield`'s loop when the
picked cell is not yet a mine) preserves `numbersFromMines`. -/
lemma place_mine_consistent {g : Grid} {l h qx qy : Nat} (hqx : qx < l) (hqy : qy < h)
    (hmine : (g qy qx).mine = false) (hg : numbersFromMines g l h) :
    numbersFromMines
      (increment_numbers (setCell g qy qx { g qy qx with mine := true }) qx qy 0 0 l h)
      l h := by
  intro x y
  set g1 : Grid := setCell g qy qx { g qy qx with mine := true } with hg1
  set g2 : Grid := increment_numbers g1 qx qy 0 0 l h with hg2
  have hnum : (g2 y x).number =
      (g y x).number + (if inBox qx qy l h x y then 1 else 0) := by
    rw [hg2, increment_numbers_eval]
    have h1 : (g1 y x).number = (g y x).number := by
      rw [hg1, setCell_eval]
      by_cases hc : y = qy ∧ x = qx
      · simp [hc]
      · simp [hc]
    by_cases hb : inBox qx qy l h x y <;> simp [hb, h1]
  have hmine2 : ∀ y' x', (g2 y' x').mine =
      if x' = qx ∧ y' = qy then true else (g y' x').mine := by
    intro y' x'
    have h2 : (g2 y' x').mine = (g1 y' x').mine := by
      rw [hg2, increment_numbers_eval]
      by_cases hb : inBox qx qy l h x' y' <;> simp [hb]
    rw [h2, hg1, setCell_eval]
    by_cases hc : y' = qy ∧ x' = qx
    · obtain ⟨rfl, rfl⟩ := hc
      simp
    · have hc' : ¬(x' = qx ∧ y' = qy) := fun h' => hc ⟨h'.2, h'.1⟩
      simp [hc, hc']
  have hsplit : ∀ y' x',
      (if (g2 y' x').mine ∧ inBox x' y' l h x y then (1 : Nat) else 0) =
        (if (g y' x').mine ∧ inBox x' y' l h x y then 1 else 0) +
        (if x' = qx ∧ y' = qy ∧ inBox qx qy l h x y then 1 else 0) := by
    intro y' x'
    by_cases hs : x' = qx ∧ y' = qy
    · obtain ⟨rfl, rfl⟩ := hs
      rw [hmine2]
      by_cases hb : inBox x' y' l h x y <;> simp [hb, hmine]
    · rw [hmine2, if_neg hs]
      have hs3 : ¬(x' = qx ∧ y' = qy ∧ inBox qx qy l h x y) :=
        fun h' => hs ⟨h'.1, h'.2.1⟩
      by_cases hm : (g y' x').mine <;>
        by_cases hb : inBox x' y' l h x y <;> simp [hm, hb, hs3]
  calc (g2 y x).number
      = (g y x).number + (if inBox qx qy l h x y then 1 else 0) := hnum
    _ = (∑ y' ∈ Finset.range h, ∑ x' ∈ Finset.range l,
          if (g y' x').mine ∧ inBox x' y' l h x y then 1 else 0) +
        (if inBox qx qy l h x y then 1 else 0) := by rw [hg x y]
    _ = (∑ y' ∈ Finset.range h, ∑ x' ∈ Finset.range l,
          if (g y' x').mine ∧ inBox x' y' l h x y then 1 else 0) +
        (∑ y' ∈ Finset.range h, ∑ x' ∈ Finset.range l,
          if x' = qx ∧ y' = qy ∧ inBox qx qy l h x y then 1 else 0) := by
        rw [sum_point_double l h qx qy hqx hqy]
    _ = ∑ y' ∈ Finset.range h, ∑ x' ∈ Finset.range l,
          if (g2 y' x').mine ∧ inBox x' y' l h x y then 1 else 0 := by
        rw [← Finset.sum_add_distrib]
        apply Finset.sum_congr rfl
        intro y' _
        rw [← Finset.sum_add_distrib]
        exact Finset.sum_congr rfl fun x' _ => (hsplit y' x').symm

lemma mk_mt_consistent (l h : Nat) : numbersFromMines (mk_mt_minefield l h) l h := by
  intro x y
  simp [mk_mt_minefield, mk_mt_cell]

lemma gen_loop_consistent {l h : Nat} :
    ∀ (picks : List (Nat × Nat)) (g : Grid) (m : Nat) (g' : Grid),
      (∀ p ∈ picks, p.1 < l ∧ p.2 < h) → numbersFromMines g l h →
      gen_loop l h picks g m = some g' → numbersFromMines g' l h := by
  intro picks
  induction picks with
  | nil =>
    intro g m g' _ hg hrun
    cases m with
    | zero => cases hrun; exact hg
    | succ m => cases hrun
  | cons p picks ih =>
    intro g m g' hin hg hrun
    obtain ⟨px, py⟩ := p
    cases m with
    | zero => cases hrun; exact hg
    | succ m =>
      have hpx : px < l := (hin (px, py) (List.mem_cons_self _ _)).1
      have hpy : py < h := (hin (px, py) (List.mem_cons_self _ _)).2
      have hin' : ∀ q ∈ picks, q.1 < l ∧ q.2 < h :=
        fun q hq => hin q (List.mem_cons_of_mem _ hq)
      rw [gen_loop] at hrun
      by_cases hm : (g py px).mine
      · rw [if_pos hm] at hrun
        exact ih g (m + 1) g' hin' hg hrun
      · rw [if_neg hm] at hrun
        exact ih _ m g' hin'
          (place_mine_consistent hpx hpy (Bool.not_eq_true _ ▸ hm) hg) hrun

lemma gen_loop_bits {l h : Nat} :
    ∀ (picks : List (Nat × Nat)) (g : Grid) (m : Nat) (g' : Grid),
      gen_loop l h picks g m = some g' →
      ∀ y x, (g' y x).opened = (g y x).opened ∧ (g' y x).flagged = (g y x).flagged := by
  intro picks
  induction picks with
  | nil =>
    intro g m g' hrun y x
    cases m with
    | zero => cases hrun; exact ⟨rfl, rfl⟩
    | succ m => cases hrun
  | cons p picks ih =>
    intro g m g' hrun y x
    obtain ⟨px, py⟩ := p
    cases m with
    | zero => cases hrun; exact ⟨rfl, rfl⟩
    | succ m =>
      rw [gen_loop] at hrun
      by_cases hm : (g py px).mine
      · rw [if_pos hm] at hrun
        exact ih g (m + 1) g' hrun y x
      · rw [if_neg hm] at hrun
        have h1 := ih _ m g' hrun y x
        have h2 : ∀ y x,
            ((increment_numbers (setCell g py px { g py px with mine := true })
                px py 0 0 l h) y x).opened = (g y x).opened ∧
            ((increment_numbers (setCell g py px { g py px with mine := true })
                px py 0 0 l h) y x).flagged = (g y x).flagged := by
          intro y x
          rw [increment_numbers_eval, setCell_eval]
          by_cases hc : y = py ∧ x = px
          · obtain ⟨rfl, rfl⟩ := hc
            by_cases hb : inBox x y l h x y <;> simp [hb]
          · by_cases hb : inBox px py l h x y <;> simp [hb, hc]
        exact ⟨h1.1.trans (h2 y x).1, h1.2.trans (h2 y x).2⟩

lemma consistent_eval {g : Grid} {l h : Nat} (hg : numbersFromMines g l h)
    {x y : Nat} (hx : x < l) (hy : y < h) :
    (g y x).number = mineCountIncl g l h x y := by
  rw [hg x y, mineCountIncl]
  apply Finset.sum_congr rfl
  intro y' hy'
  apply Finset.sum_congr rfl
  intro x' hx'
  have hx' := Finset.mem_range.1 hx'
  have hy' := Finset.mem_range.1 hy'
  have hiff : (g y' x').mine ∧ inBox x' y' l h x y ↔
      inBox x y l h x' y' ∧ (g y' x').mine := by
    rw [inBox_symm hx hy hx' hy']
    exact and_comm
  exact if_congr hiff rfl rfl

lemma mineCountIncl_eq_excl (g : Grid) {l h x y : Nat} (hx : x < l) (hy : y < h) :
    mineCountIncl g l h x y =
      mineCountExcl g l h x y + (if (g y x).mine then 1 else 0) := by
  unfold mineCountIncl mineCountExcl
  have hsplit : ∀ y' x',
      (if inBox x y l h x' y' ∧ (g y' x').mine then (1 : Nat) else 0) =
        (if inBox x y l h x' y' ∧ (g y' x').mine ∧ ¬(x' = x ∧ y' = y) then 1 else 0) +
        (if x' = x ∧ y' = y ∧ (g y x).mine then 1 else 0) := by
    intro y' x'
    by_cases hs : x' = x ∧ y' = y
    · obtain ⟨rfl, rfl⟩ := hs
      have hself : inBox x' y' l h x' y' := inBox_self hx hy
      by_cases hm : (g y' x').mine <;> simp [hm, hself]
    · have hs3 : ¬(x' = x ∧ y' = y ∧ (g y x).mine) := fun h' => hs ⟨h'.1, h'.2.1⟩
      by_cases hb : inBox x y l h x' y' <;>
        by_cases hm : (g y' x').mine <;> simp [hb, hm, hs, hs3]
  calc (∑ y' ∈ Finset.range h, ∑ x' ∈ Finset.range l,
          if inBox x y l h x' y' ∧ (g y' x').mine then (1 : Nat) else 0)
      = (∑ y' ∈ Finset.range h, ∑ x' ∈ Finset.range l,
          ((if inBox x y l h x' y' ∧ (g y' x').mine ∧ ¬(x' = x ∧ y' = y) then (1 : Nat) else 0) +
           (if x' = x ∧ y' = y ∧ (g y x).mine then 1 else 0))) := by
        apply Finset.sum_congr rfl
        intro y' _
        exact Finset.sum_congr rfl fun x' _ => hsplit y' x'
    _ = (∑ y' ∈ Finset.range h, ∑ x' ∈ Finset.range l,
          if inBox x y l h x' y' ∧ (g y' x').mine ∧ ¬(x' = x ∧ y' = y) then (1 : Nat) else 0) +
        (∑ y' ∈ Finset.range h, ∑ x' ∈ Finset.range l,
          if x' = x ∧ y' = y ∧ (g y x).mine then (1 : Nat) else 0) := by
        rw [← Finset.sum_add_distrib]
        apply Finset.sum_congr rfl
        intro y' _
        rw [← Finset.sum_add_distrib]
    _ = _ := by rw [sum_point_double l h x y hx hy]

/-- C1 (amended): whenever `generate_minefield` completes on a stream of
in-bounds picks, every in-bounds cell's `number` equals the count of
mines in its clipped 3×3 box *including the cell itself*; equivalently,
it equals the clipped 8-neighbourhood mine count plus one exactly when
the cell is a mine, because `increment_numbers` includes the centre cell
in the box it increments. -/
theorem generate_minefield_numbers (o : MOption) (picks : List (Nat × Nat))
    (s : ModelState) (hgen : generate_minefield o picks = some s)
    (hpicks : ∀ p ∈ picks, p.1 < o.l ∧ p.2 < o.h) :
    ∀ x, x < o.l → ∀ y, y < o.h →
      (s.minefield y x).number = mineCountIncl s.minefield o.l o.h x y ∧
      (s.minefield y x).number =
        mineCountExcl s.minefield o.l o.h x y +
          (if (s.minefield y x).mine then 1 else 0) := by
  intro x hx y hy
  obtain ⟨g, hrun, hs⟩ := Option.map_eq_some'.1 hgen
  have hmf : s.minefield = g := by rw [← hs]
  have hcons : numbersFromMines g o.l o.h :=
    gen_loop_consistent picks (mk_mt_minefield o.l o.h) (calculate_mines o) g
      hpicks (mk_mt_consistent o.l o.h) hrun
  rw [hmf]
  refine ⟨consistent_eval hcons hx hy, ?_⟩
  rw [consistent_eval hcons hx hy, mineCountIncl_eq_excl g hx hy]

/-- Counterexample to C1 as stated: generating a 2×1 field whose single
mine lands at `(0, 0)` gives that cell `number = 1`, while its clipped
8-neighbourhood (which excludes the cell itself) holds `0` mines —
placing a mine does increment the mine's own cell. -/
theorem generate_minefield_numbers_cex :
    (generate_minefield ⟨2, 1, 50⟩ [(0, 0)]).map
        (fun s => ((s.minefield 0 0).number, mineCountExcl s.minefield 2 1 0 0)) =
      some (1, 0) := by decide

/-- Witness for the amended C1 on the same concrete run. -/
theorem generate_minefield_numbers_witness :
    ∃ s, generate_minefield ⟨2, 1, 50⟩ [(0, 0)] = some s ∧
      (s.minefield 0 0).number = mineCountIncl s.minefield 2 1 0 0 := by
  obtain ⟨s, hs⟩ := Option.isSome_iff_exists.1
    (show (generate_minefield ⟨2, 1, 50⟩ [(0, 0)]).isSome = true from rfl)
  exact ⟨s, hs,
    (generate_minefield_numbers ⟨2, 1, 50⟩ [(0, 0)] s hs (by decide) 0 (by decide)
      0 (by decide)).1⟩

lemma mem_pyRange {a b m : Nat} : m ∈ pyRange a b ↔ a ≤ m ∧ m < b := by
  unfold pyRange
  rw [List.mem_range'_1]
  omega

lemma length_pyRange (a b : Nat) : (pyRange a b).length = b - a := by
  simp [pyRange]

lemma mem_boxPoints {l h cx cy : Nat} {p : Nat × Nat} :
    p ∈ boxPoints l h cx cy ↔ inBox cx cy l h p.1 p.2 := by
  unfold boxPoints inBox
  simp only [List.mem_flatMap, List.mem_map, mem_pyRange]
  constructor
  · rintro ⟨x, hx, y, hy, rfl⟩
    exact ⟨hx, hy⟩
  · rintro ⟨hx, hy⟩
    exact ⟨p.1, hx, p.2, hy, rfl⟩

lemma nodup_boxPoints (l h cx cy : Nat) : (boxPoints l h cx cy).Nodup := by
  unfold boxPoints
  rw [List.nodup_flatMap]
  constructor
  · intro x _
    exact List.Nodup.map (fun a b hab => congrArg Prod.snd hab)
      (by simp [pyRange, List.nodup_range'])
  · have hnd : (pyRange (max 0 (cx - 1)) (min (l - 1) (cx + 1) + 1)).Nodup := by
      simp [pyRange, List.nodup_range']
    refine List.Pairwise.imp ?_ hnd
    intro a b hab p hpa hpb
    rw [List.mem_map] at hpa hpb
    obtain ⟨ya, _, rfl⟩ := hpa
    obtain ⟨yb, _, heq⟩ := hpb
    exact hab (congrArg Prod.fst heq).symm

lemma sum_le_three_mul_length : ∀ L : List Nat, (∀ a ∈ L, a ≤ 3) → L.sum ≤ 3 * L.length := by
  intro L
  induction L with
  | nil => intro _; simp
  | cons a L ih =>
    intro hL
    have ha := hL a (List.mem_cons_self _ _)
    have := ih fun b hb => hL b (List.mem_cons_of_mem _ hb)
    simp only [List.sum_cons, List.length_cons]
    omega

lemma length_boxPoints_le (l h cx cy : Nat) : (boxPoints l h cx cy).length ≤ 9 := by
  unfold boxPoints
  rw [List.length_flatMap]
  have hy : (pyRange (max 0 (cy - 1)) (min (h - 1) (cy + 1) + 1)).length ≤ 3 := by
    rw [length_pyRange]; omega
  have hx : (pyRange (max 0 (cx - 1)) (min (l - 1) (cx + 1) + 1)).length ≤ 3 := by
    rw [length_pyRange]; omega
  have hall : ∀ a ∈ (pyRange (max 0 (cx - 1)) (min (l - 1) (cx + 1) + 1)).map
      (fun x_near => ((pyRange (max 0 (cy - 1)) (min (h - 1) (cy + 1) + 1)).map
        fun y_near => (x_near, y_near)).length), a ≤ 3 := by
    intro a ha
    rw [List.mem_map] at ha
    obtain ⟨x, _, rfl⟩ := ha
    simpa using hy
  calc (List.map _ _).sum ≤ 3 * (List.map _ _).length := sum_le_three_mul_length _ hall
    _ ≤ 9 := by rw [List.length_map]; omega

lemma boxPoints_bounds {l h cx cy : Nat} (hl : 1 ≤ l) (hh : 1 ≤ h) :
    ∀ p ∈ boxPoints l h cx cy, p.1 < l ∧ p.2 < h := by
  intro p hp
  rw [mem_boxPoints] at hp
  unfold inBox at hp
  omega

/-- When the centre cell is opened, excluding it from the box does not
change the unopened count: the code's whole-box count equals the claim's
8-neighbourhood count. -/
lemma unopenedNeighborCount_eq {g : Grid} {l h x y : Nat}
    (hop : (g y x).opened = true) :
    unopenedNeighborCount g l h x y =
      ((boxPoints l h x y).filter fun p => !(g p.2 p.1).opened).length := by
  unfold unopenedNeighborCount
  congr 1
  apply List.filter_congr
  intro p _
  by_cases hpe : p = (x, y)
  · subst hpe
    simp [hop]
  · have hne : ¬(p.1 = x ∧ p.2 = y) := by
      intro hc
      exact hpe (Prod.ext hc.1 hc.2)
    have : (p.1 == x && p.2 == y) = false := by
      by_cases h1 : p.1 = x
      · by_cases h2 : p.2 = y
        · exact absurd ⟨h1, h2⟩ hne
        · simp [h2]
      · simp [h1]
    simp [this]

/-- Running the flag loop over a duplicate-free list of currently
unflagged points flags exactly those points and counts each once. -/
lemma flag_fold_spec : ∀ (L : List (Nat × Nat)) (g : Grid) (n : Nat),
    L.Nodup → (∀ p ∈ L, (g p.2 p.1).flagged = false) →
    (L.foldl flag_step (g, n)).2 = n + L.length ∧
    (∀ y x, (L.foldl flag_step (g, n)).1 y x =
      if (x, y) ∈ L then { g y x with flagged := true } else g y x) := by
  intro L
  induction L with
  | nil =>
    intro g n _ _
    exact ⟨by simp, fun y x => by simp⟩
  | cons p L ih =>
    intro g n hnd hunf
    obtain ⟨px, py⟩ := p
    have hpf : (g py px).flagged = false := hunf (px, py) (List.mem_cons_self _ _)
    rw [List.foldl_cons]
    have hstep : flag_step (g, n) (px, py) =
        (setCell g py px { g py px with flagged := true }, n + 1) := by
      unfold flag_step
      rw [if_neg (by simp [hpf])]
    rw [hstep]
    set g1 := setCell g py px { g py px with flagged := true } with hg1
    have hnd' : L.Nodup := (List.nodup_cons.1 hnd).2
    have hpnotin : (px, py) ∉ L := (List.nodup_cons.1 hnd).1
    have hunf' : ∀ q ∈ L, (g1 q.2 q.1).flagged = false := by
      intro q hq
      have hne : q ≠ (px, py) := fun he => hpnotin (he ▸ hq)
      rw [hg1, setCell_eval, if_neg (fun hc => hne (Prod.ext hc.2 hc.1))]
      exact hunf q (List.mem_cons_of_mem _ hq)
    obtain ⟨hcnt, hgrid⟩ := ih g1 (n + 1) hnd' hunf'
    refine ⟨by rw [hcnt]; simp; omega, ?_⟩
    intro y x
    rw [hgrid y x]
    by_cases hmem : (x, y) ∈ L
    · rw [if_pos hmem, if_pos (List.mem_cons_of_mem _ hmem)]
      have hne : (x, y) ≠ (px, py) := fun he => hpnotin (he ▸ hmem)
      rw [hg1, setCell_eval, if_neg (fun hc => hne (Prod.ext hc.2 hc.1))]
    · rw [if_neg hmem]
      by_cases hpeq : (x, y) = (px, py)
      · have hx1 : x = px := congrArg Prod.fst hpeq
        have hy1 : y = py := congrArg Prod.snd hpeq
        subst hx1; subst hy1
        rw [if_pos (List.mem_cons_self _ _), hg1, setCell_eval, if_pos ⟨rfl, rfl⟩]
      · have hnot : (x, y) ∉ (px, py) :: L := by
          intro hc
          rcases List.mem_cons.1 hc with hc1 | hc1
          · exact hpeq hc1
          · exact hmem hc1
        rw [if_neg hnot, hg1, setCell_eval,
          if_neg (fun hc => hpeq (Prod.ext hc.2 hc.1))]

/-- C5: with the game RUNNING and the hovered cell opened, `toggle_flag`
chords: when the unopened count of the clipped 8-neighbourhood equals the
hovered cell's `number`, every unopened unflagged box cell becomes
flagged (all other cells unchanged) and `num_flagged` grows by the number
of newly flagged cells; on a mismatch nothing changes; and no cell is
ever unflagged. -/
theorem toggle_flag_chord (v : GameView) (hrun : v.state = State.RUNNING)
    (hop : (v.minefield v.hover_y v.hover_x).opened = true) :
    (unopenedNeighborCount v.minefield v.difficulty.l v.difficulty.h v.hover_x v.hover_y =
        (v.minefield v.hover_y v.hover_x).number →
      (∀ y x, (toggle_flag v).minefield y x =
        if inBox v.hover_x v.hover_y v.difficulty.l v.difficulty.h x y ∧
            (v.minefield y x).opened = false ∧ (v.minefield y x).flagged = false then
          { v.minefield y x with flagged := true }
        else v.minefield y x) ∧
      (toggle_flag v).num_flagged = v.num_flagged +
        ((boxPoints v.difficulty.l v.difficulty.h v.hover_x v.hover_y).filter fun p =>
          !(v.minefield p.2 p.1).opened && !(v.minefield p.2 p.1).flagged).length) ∧
    (unopenedNeighborCount v.minefield v.difficulty.l v.difficulty.h v.hover_x v.hover_y ≠
        (v.minefield v.hover_y v.hover_x).number →
      toggle_flag v = v) ∧
    (∀ y x, (v.minefield y x).flagged = true →
      ((toggle_flag v).minefield y x).flagged = true) := by
  have hns : ¬(v.state = State.WON ∨ v.state = State.LOST) := by
    rw [hrun]; decide
  have hcnt := unopenedNeighborCount_eq (l := v.difficulty.l) (h := v.difficulty.h) hop
  set pts := boxPoints v.difficulty.l v.difficulty.h v.hover_x v.hover_y with hpts
  set temp := pts.filter
    (fun p => !(v.minefield p.2 p.1).opened && !(v.minefield p.2 p.1).flagged) with htemp
  set ucount := (pts.filter fun p => !(v.minefield p.2 p.1).opened).length with hucount
  have hred : toggle_flag v =
      { v with
        minefield := ((if ucount = (v.minefield v.hover_y v.hover_x).number then temp
            else []).foldl flag_step (v.minefield, v.num_flagged)).1,
        num_flagged := ((if ucount = (v.minefield v.hover_y v.hover_x).number then temp
            else []).foldl flag_step (v.minefield, v.num_flagged)).2 } := by
    simp only [toggle_flag]
    rw [if_neg hns, if_neg (by simp [hop])]
  have hfold := flag_fold_spec temp v.minefield v.num_flagged
    (List.Nodup.filter _ (nodup_boxPoints _ _ _ _))
    (by
      intro p hp
      have := (List.mem_filter.1 hp).2
      simp only [Bool.and_eq_true, Bool.not_eq_true'] at this
      exact this.2)
  have hmemtemp : ∀ y x, ((x, y) ∈ temp ↔
      inBox v.hover_x v.hover_y v.difficulty.l v.difficulty.h x y ∧
        (v.minefield y x).opened = false ∧ (v.minefield y x).flagged = false) := by
    intro y x
    rw [htemp, List.mem_filter, hpts, mem_boxPoints]
    simp [Bool.and_eq_true, Bool.not_eq_true', and_comm]
  refine ⟨?_, ?_, ?_⟩
  · intro hcond
    have hc2 : ucount = (v.minefield v.hover_y v.hover_x).number := by
      rw [← hcnt]; exact hcond
    rw [hred]
    refine ⟨fun y x => ?_, ?_⟩
    · simp only [if_pos hc2]
      rw [(hfold.2 y x)]
      exact if_congr (hmemtemp y x) rfl rfl
    · simp only [if_pos hc2]
      rw [hfold.1]
  · intro hcond
    have hc2 : ucount ≠ (v.minefield v.hover_y v.hover_x).number := by
      rw [← hcnt]; exact hcond
    rw [hred, if_neg hc2]
    rfl
  · intro y x hfl
    by_cases hc2 : ucount = (v.minefield v.hover_y v.hover_x).number
    · rw [hred]
      simp only [if_pos hc2]
      rw [hfold.2 y x]
      by_cases hmem : (x, y) ∈ temp
      · rw [if_pos hmem]
      · rw [if_neg hmem]; exact hfl
    · rw [hred, if_neg hc2]
      exact hfl

/-- Witness for C5 on a concrete 2×2 board: the hovered opened corner has
`number = 3` and three unopened neighbours, so the chord flags all three
and `num_flagged` becomes 3. -/
theorem toggle_flag_chord_witness :
    ((toggle_flag
        { minefield := fun y x =>
            if y = 0 ∧ x = 0 then ⟨true, false, false, 3⟩
            else ⟨false, true, false, 1⟩,
          difficulty := ⟨2, 2, 75⟩, hover_x := 0, hover_y := 0,
          num_mines := 3, num_flagged := 0, state := State.RUNNING }).num_flagged = 0 + 3) := by
  have h := (toggle_flag_chord
    { minefield := fun y x =>
        if y = 0 ∧ x = 0 then ⟨true, false, false, 3⟩
        else ⟨false, true, false, 1⟩,
      difficulty := ⟨2, 2, 75⟩, hover_x := 0, hover_y := 0,
      num_mines := 3, num_flagged := 0, state := State.RUNNING }
    rfl (by decide)).1 (by decide)
  rw [h.2]
  decide

lemma open_loop_frame {l h : Nat} : ∀ (fuel : Nat) (g : Grid) (mound : List (Nat × Nat))
    (pos : Nat) (log : List (Nat × Nat)) (g' : Grid) (lost : Bool) (log' : List (Nat × Nat)),
    open_loop l h fuel g mound pos log = some (g', lost, log') →
    ∀ y x, (g' y x).mine = (g y x).mine ∧ (g' y x).flagged = (g y x).flagged ∧
      (g' y x).number = (g y x).number ∧
      ((g y x).opened = true → (g' y x).opened = true) := by
  intro fuel
  induction fuel with
  | zero =>
    intro g mound pos log g' lost log' hrun
    cases hrun
  | succ fuel ih =>
    intro g mound pos log g' lost log' hrun y x
    rw [open_loop] at hrun
    split at hrun
    · dsimp only at hrun
      rename_i hp
      set point := mound.get ⟨pos, hp⟩ with hpoint
      set g1 : Grid := setCell g point.2 point.1 { g point.2 point.1 with opened := true }
        with hg1
      have hcell : ∀ y x, (g1 y x).mine = (g y x).mine ∧
          (g1 y x).flagged = (g y x).flagged ∧ (g1 y x).number = (g y x).number ∧
          ((g y x).opened = true → (g1 y x).opened = true) := by
        intro y x
        rw [hg1, setCell_eval]
        by_cases hc : y = point.2 ∧ x = point.1
        · obtain ⟨rfl, rfl⟩ := hc
          simp
        · simp [hc]
      split at hrun
      · exact ih g mound (pos + 1) log g' lost log' hrun y x
      · split at hrun
        · injection hrun with hrun
          injection hrun with h1 h2
          subst h1
          exact hcell y x
        · split at hrun
          · have := ih _ _ _ _ _ _ _ hrun y x
            obtain ⟨a1, a2, a3, a4⟩ := this
            obtain ⟨b1, b2, b3, b4⟩ := hcell y x
            exact ⟨a1.trans b1, a2.trans b2, a3.trans b3, fun ho => a4 (b4 ho)⟩
          · have := ih _ _ _ _ _ _ _ hrun y x
            obtain ⟨a1, a2, a3, a4⟩ := this
            obtain ⟨b1, b2, b3, b4⟩ := hcell y x
            exact ⟨a1.trans b1, a2.trans b2, a3.trans b3, fun ho => a4 (b4 ho)⟩
    · injection hrun with hrun
      injection hrun with h1 h2
      subst h1
      exact ⟨rfl, rfl, rfl, fun ho => ho⟩

/-- Cells the flood fill opens were unflagged: worklist entries are only
ever enqueued while unflagged and flags never change during the loop. -/
lemma open_loop_opens_unflagged {l h : Nat} :
    ∀ (fuel : Nat) (g : Grid) (mound : List (Nat × Nat)) (pos : Nat)
      (log : List (Nat × Nat)) (g' : Grid) (lost : Bool) (log' : List (Nat × Nat)),
    (∀ p ∈ mound, (g p.2 p.1).flagged = false) →
    open_loop l h fuel g mound pos log = some (g', lost, log') →
    ∀ y x, (g' y x).opened = true →
      (g y x).opened = true ∨ (g y x).flagged = false := by
  intro fuel
  induction fuel with
  | zero =>
    intro g mound pos log g' lost log' _ hrun
    cases hrun
  | succ fuel ih =>
    intro g mound pos log g' lost log' hmound hrun y x
    rw [open_loop] at hrun
    split at hrun
    · dsimp only at hrun
      rename_i hp
      set point := mound.get ⟨pos, hp⟩ with hpoint
      have hpmem : point ∈ mound := by rw [hpoint]; exact mound.get_mem _ _
      have hpunf : (g point.2 point.1).flagged = false := hmound point hpmem
      set g1 : Grid := setCell g point.2 point.1 { g point.2 point.1 with opened := true }
        with hg1
      have hflag1 : ∀ y x, (g1 y x).flagged = (g y x).flagged := by
        intro y x
        rw [hg1, setCell_eval]
        by_cases hc : y = point.2 ∧ x = point.1
        · obtain ⟨rfl, rfl⟩ := hc; simp
        · simp [hc]
      have hop1 : ∀ y x, (g1 y x).opened = true →
          (g y x).opened = true ∨ (g y x).flagged = false := by
        intro y x _
        by_cases hc : y = point.2 ∧ x = point.1
        · obtain ⟨rfl, rfl⟩ := hc
          exact Or.inr hpunf
        · rename_i hgo
          rw [hg1, setCell_eval, if_neg hc] at hgo
          exact Or.inl hgo
      have hmound1 : ∀ p ∈ mound, (g1 p.2 p.1).flagged = false := by
        intro p hq
        rw [hflag1]; exact hmound p hq
      split at hrun
      · exact ih g mound (pos + 1) log g' lost log' hmound hrun y x
      · split at hrun
        · injection hrun with hrun
          injection hrun with h1 h2
          subst h1
          exact hop1 y x
        · split at hrun
          · have hmound2 : ∀ p ∈ mound ++ ((boxPoints l h point.1 point.2).filter fun q =>
                !(g1 q.2 q.1).opened && !(g1 q.2 q.1).flagged),
                (g1 p.2 p.1).flagged = false := by
              intro p hq
              rcases List.mem_append.1 hq with hq | hq
              · exact hmound1 p hq
              · have := (List.mem_filter.1 hq).2
                simp only [Bool.and_eq_true, Bool.not_eq_true'] at this
                exact this.2
            intro hgo
            rcases ih g1 _ (pos + 1) _ g' lost log' hmound2 hrun y x hgo with hcase | hcase
            · exact hop1 y x hcase
            · rw [hflag1] at hcase
              exact Or.inr hcase
          · intro hgo
            rcases ih g1 mound (pos + 1) _ g' lost log' hmound1 hrun y x hgo with hcase | hcase
            · exact hop1 y x hcase
            · rw [hflag1] at hcase
              exact Or.inr hcase
    · injection hrun with hrun
      injection hrun with h1 h2
      subst h1
      intro hgo
      exact Or.inl hgo

lemma sum_point_double_simple (l h qx qy : Nat) (hx : qx < l) (hy : qy < h) :
    (∑ y' ∈ Finset.range h, ∑ x' ∈ Finset.range l,
      if x' = qx ∧ y' = qy then (1 : Nat) else 0) = 1 := by
  have := sum_point_double l h qx qy hx hy True
  simpa using this

lemma unopenedCount_le (g : Grid) (l h : Nat) : unopenedCount g l h ≤ l * h := by
  unfold unopenedCount
  calc (∑ y ∈ Finset.range h, ∑ x ∈ Finset.range l, if (g y x).opened then 0 else 1)
      ≤ ∑ _y ∈ Finset.range h, ∑ _x ∈ Finset.range l, 1 := by
        apply Finset.sum_le_sum
        intro y _
        apply Finset.sum_le_sum
        intro x _
        by_cases hc : (g y x).opened <;> simp [hc]
    _ = h * l := by simp [Finset.sum_const, Finset.card_range, Nat.mul_comm]
    _ ≤ l * h := by rw [Nat.mul_comm]

lemma unopenedCount_open {g : Grid} {l h px py : Nat} (hx : px < l) (hy : py < h)
    (hop : (g py px).opened = false) :
    unopenedCount (setCell g py px { g py px with opened := true }) l h + 1 =
      unopenedCount g l h := by
  unfold unopenedCount
  set g1 : Grid := setCell g py px { g py px with opened := true } with hg1
  have hsplit : ∀ y x, (if (g y x).opened then (0 : Nat) else 1) =
      (if (g1 y x).opened then 0 else 1) + (if x = px ∧ y = py then 1 else 0) := by
    intro y x
    by_cases hc : x = px ∧ y = py
    · obtain ⟨rfl, rfl⟩ := hc
      have h1 : (g1 y x).opened = true := by
        rw [hg1, setCell_eval, if_pos ⟨rfl, rfl⟩]
      simp [hop, h1]
    · have hc' : ¬(y = py ∧ x = px) := fun hcc => hc ⟨hcc.2, hcc.1⟩
      have h1 : (g1 y x).opened = (g y x).opened := by
        rw [hg1, setCell_eval, if_neg hc']
      rw [h1]
      simp [hc]
  calc (∑ y ∈ Finset.range h, ∑ x ∈ Finset.range l, if (g1 y x).opened then (0 : Nat) else 1) + 1
      = (∑ y ∈ Finset.range h, ∑ x ∈ Finset.range l, if (g1 y x).opened then (0 : Nat) else 1) +
        (∑ y ∈ Finset.range h, ∑ x ∈ Finset.range l, if x = px ∧ y = py then (1 : Nat) else 0) := by
        rw [sum_point_double_simple l h px py hx hy]
    _ = ∑ y ∈ Finset.range h, ∑ x ∈ Finset.range l, if (g y x).opened then (0 : Nat) else 1 := by
        rw [← Finset.sum_add_distrib]
        apply Finset.sum_congr rfl
        intro y _
        rw [← Finset.sum_add_distrib]
        exact Finset.sum_congr rfl fun x _ => (hsplit y x).symm

/-- Termination and single-visit discipline of the flood fill: with fuel
exceeding the measure `9·#unopened + #worklist-remainder`, the loop
completes, its log of opened points is duplicate-free, and every logged
point was unopened (and in bounds) when the loop started. -/
lemma open_loop_terminates {l h : Nat} :
    ∀ (fuel : Nat) (g : Grid) (mound : List (Nat × Nat)) (pos : Nat)
      (log : List (Nat × Nat)),
    (∀ p ∈ mound, p.1 < l ∧ p.2 < h) →
    (∀ p ∈ log, (g p.2 p.1).opened = true) →
    log.Nodup →
    9 * unopenedCount g l h + (mound.length - pos) < fuel →
    ∃ g' lost log', open_loop l h fuel g mound pos log = some (g', lost, log') ∧
      log'.Nodup ∧
      ∀ p, p ∈ log' → p ∉ log → (g p.2 p.1).opened = false ∧ p.1 < l ∧ p.2 < h := by
  intro fuel
  induction fuel with
  | zero =>
    intro g mound pos log _ _ _ hfuel
    omega
  | succ fuel ih =>
    intro g mound pos log hmb hlo hnd hfuel
    rw [open_loop]
    by_cases hp : pos < mound.length
    · rw [dif_pos hp]
      dsimp only
      set point := mound.get ⟨pos, hp⟩ with hpoint
      have hpmem : point ∈ mound := by rw [hpoint]; exact mound.get_mem _ _
      have hpb : point.1 < l ∧ point.2 < h := hmb point hpmem
      by_cases hop : (g point.2 point.1).opened
      · rw [if_pos hop]
        have hfuel' : 9 * unopenedCount g l h + (mound.length - (pos + 1)) < fuel := by
          omega
        exact ih g mound (pos + 1) log hmb hlo hnd hfuel'
      · rw [if_neg hop]
        set g1 : Grid := setCell g point.2 point.1
          { g point.2 point.1 with opened := true } with hg1
        have hopen1 : (g1 point.2 point.1).opened = true := by
          rw [hg1, setCell_eval, if_pos ⟨rfl, rfl⟩]
        have hother : ∀ p : Nat × Nat, p ≠ point → ∀ fld : Cell → Bool,
            fld (g1 p.2 p.1) = fld (g p.2 p.1) := by
          intro p hne fld
          rw [hg1, setCell_eval, if_neg (fun hc => hne (Prod.ext hc.2 hc.1))]
        have hope : (g point.2 point.1).opened = false := Bool.of_not_eq_true hop
        have hcount : unopenedCount g1 l h + 1 = unopenedCount g l h :=
          unopenedCount_open hpb.1 hpb.2 hope
        have hpnotlog : point ∉ log := fun hmem => hop (hlo point hmem)
        have hnd' : (log ++ [point]).Nodup := by
          rw [List.nodup_append]
          exact ⟨hnd, List.nodup_singleton _, by
            intro a ha hb
            rw [List.mem_singleton] at hb
            subst hb
            exact hpnotlog ha⟩
        have hlo' : ∀ p ∈ log ++ [point], (g1 p.2 p.1).opened = true := by
          intro p hmem
          rcases List.mem_append.1 hmem with hmem | hmem
          · by_cases hne : p = point
            · subst hne; exact hopen1
            · rw [hother p hne Cell.opened]
              exact hlo p hmem
          · rw [List.mem_singleton] at hmem
            subst hmem
            exact hopen1
        have hmine_eq : (g1 point.2 point.1).mine = (g point.2 point.1).mine := by
          rw [hg1, setCell_eval, if_pos ⟨rfl, rfl⟩]
        have hnum_eq : (g1 point.2 point.1).number = (g point.2 point.1).number := by
          rw [hg1, setCell_eval, if_pos ⟨rfl, rfl⟩]
        have htrans : ∀ (log' : List (Nat × Nat)),
            (∀ p, p ∈ log' → p ∉ log ++ [point] →
              (g1 p.2 p.1).opened = false ∧ p.1 < l ∧ p.2 < h) →
            ∀ p, p ∈ log' → p ∉ log → (g p.2 p.1).opened = false ∧ p.1 < l ∧ p.2 < h := by
          intro log' hnew p hmem hnotin
          by_cases hne : p = point
          · subst hne
            exact ⟨hope, hpb⟩
          · have hnotin' : p ∉ log ++ [point] := by
              intro hc
              rcases List.mem_append.1 hc with hc | hc
              · exact hnotin hc
              · rw [List.mem_singleton] at hc
                exact hne hc
            have := hnew p hmem hnotin'
            rw [hother p hne Cell.opened] at this
            exact this
        by_cases hmine : (g1 point.2 point.1).mine
        · rw [if_pos hmine]
          refine ⟨g1, true, log ++ [point], rfl, hnd', ?_⟩
          intro p hmem hnotin
          rcases List.mem_append.1 hmem with hc | hc
          · exact absurd hc hnotin
          · rw [List.mem_singleton] at hc
            subst hc
            exact ⟨hope, hpb⟩
        · rw [if_neg hmine]
          by_cases hzero : (g1 point.2 point.1).number = 0
          · rw [if_pos hzero]
            set newpts := (boxPoints l h point.1 point.2).filter fun q =>
              !(g1 q.2 q.1).opened && !(g1 q.2 q.1).flagged with hnewpts
            have hmb' : ∀ p ∈ mound ++ newpts, p.1 < l ∧ p.2 < h := by
              intro p hmem
              rcases List.mem_append.1 hmem with hc | hc
              · exact hmb p hc
              · have hbp : p ∈ boxPoints l h point.1 point.2 := (List.mem_filter.1 hc).1
                exact boxPoints_bounds (by omega) (by omega) p hbp
            have hlen : newpts.length ≤ 9 := by
              calc newpts.length ≤ (boxPoints l h point.1 point.2).length :=
                    List.length_filter_le _ _
                _ ≤ 9 := length_boxPoints_le l h point.1 point.2
            have hfuel' : 9 * unopenedCount g1 l h +
                ((mound ++ newpts).length - (pos + 1)) < fuel := by
              rw [List.length_append]
              omega
            obtain ⟨g', lost, log', heq, hnd'', hnew⟩ :=
              ih g1 (mound ++ newpts) (pos + 1) (log ++ [point]) hmb' hlo' hnd' hfuel'
            exact ⟨g', lost, log', heq, hnd'', htrans log' hnew⟩
          · rw [if_neg hzero]
            have hfuel' : 9 * unopenedCount g1 l h + (mound.length - (pos + 1)) < fuel := by
              omega
            obtain ⟨g', lost, log', heq, hnd'', hnew⟩ :=
              ih g1 mound (pos + 1) (log ++ [point]) hmb hlo' hnd' hfuel'
            exact ⟨g', lost, log', heq, hnd'', htrans log' hnew⟩
    · rw [dif_neg hp]
      refine ⟨g, false, log, rfl, hnd, ?_⟩
      intro p hmem hnotin
      exact absurd hmem hnotin

lemma open_seed_bounds (v : GameView) (hx : v.hover_x < v.difficulty.l)
    (hy : v.hover_y < v.difficulty.h) :
    ∀ p ∈ open_seed v, p.1 < v.difficulty.l ∧ p.2 < v.difficulty.h := by
  intro p hp
  unfold open_seed at hp
  rcases List.mem_append.1 hp with hp | hp
  · by_cases hov : (v.minefield v.hover_y v.hover_x).opened
    · rw [if_pos hov] at hp
      dsimp only at hp
      split at hp
      · have hbp : p ∈ boxPoints v.difficulty.l v.difficulty.h v.hover_x v.hover_y :=
          (List.mem_filter.1 hp).1
        exact boxPoints_bounds (by omega) (by omega) p hbp
      · cases hp
    · rw [if_neg hov] at hp
      cases hp
  · rw [List.mem_singleton] at hp
    subst hp
    exact ⟨hx, hy⟩

lemma open_seed_unflagged (v : GameView)
    (hfl : (v.minefield v.hover_y v.hover_x).flagged = false) :
    ∀ p ∈ open_seed v, (v.minefield p.2 p.1).flagged = false := by
  intro p hp
  unfold open_seed at hp
  rcases List.mem_append.1 hp with hp | hp
  · by_cases hov : (v.minefield v.hover_y v.hover_x).opened
    · rw [if_pos hov] at hp
      dsimp only at hp
      split at hp
      · have := (List.mem_filter.1 hp).2
        simp only [Bool.and_eq_true, Bool.not_eq_true'] at this
        exact this.2
      · cases hp
    · rw [if_neg hov] at hp
      cases hp
  · rw [List.mem_singleton] at hp
    subst hp
    exact hfl

/-- C4: on any finite grid with an in-bounds cursor, the flood-fill loop
of `open_cell` runs to completion within the fuel `open_cell` supplies
(so the Python `while` loop terminates), its log of opened points is
duplicate-free, every logged point was unopened before the call (a cell
is opened at most once, and only transitions unopened → opened), and
already-opened cells stay opened. -/
theorem open_cell_flood_fill_terminates (v : GameView)
    (hx : v.hover_x < v.difficulty.l) (hy : v.hover_y < v.difficulty.h) :
    ∃ g' lost log,
      open_loop v.difficulty.l v.difficulty.h (open_fuel v) v.minefield
          (open_seed v) 0 [] = some (g', lost, log) ∧
      log.Nodup ∧
      (∀ p ∈ log, (v.minefield p.2 p.1).opened = false) ∧
      (∀ y x, (v.minefield y x).opened = true → (g' y x).opened = true) := by
  have hseedb := open_seed_bounds v hx hy
  have hfuel : 9 * unopenedCount v.minefield v.difficulty.l v.difficulty.h +
      ((open_seed v).length - 0) < open_fuel v := by
    have hle := unopenedCount_le v.minefield v.difficulty.l v.difficulty.h
    unfold open_fuel
    omega
  obtain ⟨g', lost, log, heq, hnd, hnew⟩ :=
    open_loop_terminates (open_fuel v) v.minefield (open_seed v) 0 [] hseedb
      (fun p hp => absurd hp (List.not_mem_nil p)) List.nodup_nil hfuel
  refine ⟨g', lost, log, heq, hnd, ?_, ?_⟩
  · intro p hp
    exact (hnew p hp (List.not_mem_nil p)).1
  · intro y x hop
    exact (open_loop_frame (open_fuel v) v.minefield (open_seed v) 0 [] g' lost log
      heq y x).2.2.2 hop

/-- Witness for C4 on a concrete 1×1 board with the cursor on the single
unopened cell. -/
theorem open_cell_flood_fill_terminates_witness :
    ∃ g' lost log,
      open_loop oneCellView.difficulty.l oneCellView.difficulty.h (open_fuel oneCellView)
          oneCellView.minefield (open_seed oneCellView) 0 [] = some (g', lost, log) ∧
      log.Nodup ∧
      (∀ p ∈ log, (oneCellView.minefield p.2 p.1).opened = false) ∧
      (∀ y x, (oneCellView.minefield y x).opened = true → (g' y x).opened = true) :=
  open_cell_flood_fill_terminates oneCellView (by decide) (by decide)

/-- C10: on a RUNNING board with in-bounds cursor, `open_cell` changes no
cell's `mine`, `flagged` or `number`, never unopens a cell, and leaves
`num_flagged`, `num_mines`, the difficulty (grid dimensions) and the
hover position untouched; the game state either stays as it was or moves
to WON or LOST. -/
theorem open_cell_frame_property (v : GameView) (hrun : v.state = State.RUNNING)
    (hx : v.hover_x < v.difficulty.l) (hy : v.hover_y < v.difficulty.h) :
    (open_cell v).difficulty = v.difficulty ∧
    (open_cell v).hover_x = v.hover_x ∧ (open_cell v).hover_y = v.hover_y ∧
    (open_cell v).num_mines = v.num_mines ∧
    (open_cell v).num_flagged = v.num_flagged ∧
    (∀ y x, ((open_cell v).minefield y x).mine = (v.minefield y x).mine ∧
      ((open_cell v).minefield y x).flagged = (v.minefield y x).flagged ∧
      ((open_cell v).minefield y x).number = (v.minefield y x).number ∧
      ((v.minefield y x).opened = true → ((open_cell v).minefield y x).opened = true)) ∧
    ((open_cell v).state = v.state ∨ (open_cell v).state = State.WON ∨
      (open_cell v).state = State.LOST) := by
  have hns : ¬(v.state = State.WON ∨ v.state = State.LOST) := by
    rw [hrun]; decide
  unfold open_cell
  rw [if_neg hns]
  by_cases hfl : (v.minefield v.hover_y v.hover_x).flagged
  · rw [if_pos hfl]
    exact ⟨rfl, rfl, rfl, rfl, rfl, fun y x => ⟨rfl, rfl, rfl, fun ho => ho⟩, Or.inl rfl⟩
  · rw [if_neg hfl]
    cases heq : open_loop v.difficulty.l v.difficulty.h (open_fuel v) v.minefield
        (open_seed v) 0 [] with
    | none =>
      exact ⟨rfl, rfl, rfl, rfl, rfl, fun y x => ⟨rfl, rfl, rfl, fun ho => ho⟩, Or.inl rfl⟩
    | some r =>
      obtain ⟨g, lost, log⟩ := r
      have hframe := open_loop_frame (open_fuel v) v.minefield (open_seed v) 0 [] g lost
        log heq
      dsimp only
      by_cases hlost : lost = true
      · rw [if_pos hlost]
        exact ⟨rfl, rfl, rfl, rfl, rfl, fun y x => hframe y x, Or.inr (Or.inr rfl)⟩
      · rw [if_neg hlost]
        by_cases hw : checkWon g v.difficulty.l v.difficulty.h
        · rw [if_pos hw]
          exact ⟨rfl, rfl, rfl, rfl, rfl, fun y x => hframe y x, Or.inr (Or.inl rfl)⟩
        · rw [if_neg hw]
          exact ⟨rfl, rfl, rfl, rfl, rfl, fun y x => hframe y x, Or.inl rfl⟩

/-- Witness for C10 on a concrete 1×1 RUNNING board. -/
theorem open_cell_frame_property_witness :
    (open_cell oneCellView).num_flagged = oneCellView.num_flagged :=
  (open_cell_frame_property oneCellView rfl (by decide) (by decide)).2.2.2.2.1

/-- C9 (implicit invariant): no cell is ever opened and flagged at once
in a state reachable through generation, `toggle_flag` and `open_cell`:
the empty field has neither bit set, mine placement touches neither,
`toggle_flag` flags only unopened cells and never opens, and `open_cell`
opens only unflagged cells and never flags. -/
theorem no_cell_opened_and_flagged :
    (∀ l h y x, ((mk_mt_minefield l h) y x).opened = false ∧
      ((mk_mt_minefield l h) y x).flagged = false) ∧
    (∀ l h picks m g', gen_loop l h picks (mk_mt_minefield l h) m = some g' →
      ∀ y x, (g' y x).opened = false ∧ (g' y x).flagged = false) ∧
    (∀ v : GameView, noOpenFlagged v.minefield →
      noOpenFlagged (toggle_flag v).minefield) ∧
    (∀ v : GameView, noOpenFlagged v.minefield →
      noOpenFlagged (open_cell v).minefield) := by
  refine ⟨fun l h y x => ⟨rfl, rfl⟩, ?_, ?_, ?_⟩
  · intro l h picks m g' hrun y x
    have := gen_loop_bits picks (mk_mt_minefield l h) m g' hrun y x
    rw [this.1, this.2]
    exact ⟨rfl, rfl⟩
  · intro v hinv y x
    unfold toggle_flag
    by_cases hns : v.state = State.WON ∨ v.state = State.LOST
    · rw [if_pos hns]
      exact hinv y x
    · rw [if_neg hns]
      dsimp only
      by_cases hop : (v.minefield v.hover_y v.hover_x).opened
      · rw [if_neg (by simp [hop])]
        dsimp only
        by_cases hcond : ((boxPoints v.difficulty.l v.difficulty.h v.hover_x
              v.hover_y).filter fun p => !(v.minefield p.2 p.1).opened).length =
            (v.minefield v.hover_y v.hover_x).number
        · rw [if_pos hcond]
          have hfold := flag_fold_spec
            ((boxPoints v.difficulty.l v.difficulty.h v.hover_x v.hover_y).filter fun p =>
              !(v.minefield p.2 p.1).opened && !(v.minefield p.2 p.1).flagged)
            v.minefield v.num_flagged
            (List.Nodup.filter _ (nodup_boxPoints _ _ _ _))
            (by
              intro p hp
              have := (List.mem_filter.1 hp).2
              simp only [Bool.and_eq_true, Bool.not_eq_true'] at this
              exact this.2)
          intro hcontra
          rw [hfold.2 y x] at hcontra
          by_cases hmem : (x, y) ∈ (boxPoints v.difficulty.l v.difficulty.h v.hover_x
              v.hover_y).filter fun p =>
              !(v.minefield p.2 p.1).opened && !(v.minefield p.2 p.1).flagged
          · rw [if_pos hmem] at hcontra
            have hunop := (List.mem_filter.1 hmem).2
            simp only [Bool.and_eq_true, Bool.not_eq_true'] at hunop
            exact absurd (hunop.1 ▸ hcontra.1) (by simp)
          · rw [if_neg hmem] at hcontra
            exact hinv y x hcontra
        · rw [if_neg hcond]
          exact hinv y x
      · rw [if_pos (by simp [Bool.of_not_eq_true hop])]
        by_cases hflg : (v.minefield v.hover_y v.hover_x).flagged
        · rw [if_pos hflg]
          intro hcontra
          dsimp only at hcontra
          rw [setCell_eval] at hcontra
          by_cases hc : y = v.hover_y ∧ x = v.hover_x
          · rw [if_pos hc] at hcontra
            exact absurd hcontra.2 (by simp)
          · rw [if_neg hc] at hcontra
            exact hinv y x hcontra
        · rw [if_neg hflg]
          intro hcontra
          dsimp only at hcontra
          rw [setCell_eval] at hcontra
          by_cases hc : y = v.hover_y ∧ x = v.hover_x
          · rw [if_pos hc] at hcontra
            have : (v.minefield v.hover_y v.hover_x).opened = true := hcontra.1
            exact absurd this (by simp [Bool.of_not_eq_true hop])
          · rw [if_neg hc] at hcontra
            exact hinv y x hcontra
  · intro v hinv y x
    unfold open_cell
    by_cases hns : v.state = State.WON ∨ v.state = State.LOST
    · rw [if_pos hns]
      exact hinv y x
    · rw [if_neg hns]
      by_cases hfl : (v.minefield v.hover_y v.hover_x).flagged
      · rw [if_pos hfl]
        exact hinv y x
      · rw [if_neg hfl]
        cases heq : open_loop v.difficulty.l v.difficulty.h (open_fuel v) v.minefield
            (open_seed v) 0 [] with
        | none => exact hinv y x
        | some r =>
          obtain ⟨g, lost, log⟩ := r
          have hflags : ∀ y x, (g y x).flagged = (v.minefield y x).flagged :=
            fun y x => (open_loop_frame (open_fuel v) v.minefield (open_seed v) 0 []
              g lost log heq y x).2.1
          have hopened := open_loop_opens_unflagged (open_fuel v) v.minefield
            (open_seed v) 0 [] g lost log
            (open_seed_unflagged v (Bool.of_not_eq_true hfl)) heq
          have hg : noOpenFlagged g := by
            intro y x hcontra
            obtain ⟨ho, hf⟩ := hcontra
            rcases hopened y x ho with hcase | hcase
            · rw [hflags y x] at hf
              exact hinv y x ⟨hcase, hf⟩
            · rw [hflags y x, hcase] at hf
              cases hf
          dsimp only
          by_cases hlost : lost = true
          · rw [if_pos hlost]
            exact hg y x
          · rw [if_neg hlost]
            by_cases hw : checkWon g v.difficulty.l v.difficulty.h
            · rw [if_pos hw]
              exact hg y x
            · rw [if_neg hw]
              exact hg y x

/-- Witness for C9 on the concrete 1×1 board (invariant holds, and both
operations preserve it). -/
theorem no_cell_opened_and_flagged_witness :
    noOpenFlagged (toggle_flag oneCellView).minefield ∧
    noOpenFlagged (open_cell oneCellView).minefield := by
  have hinv : noOpenFlagged oneCellView.minefield := by
    intro y x hcontra
    simpa [oneCellView, mk_mt_cell] using hcontra.1
  exact ⟨no_cell_opened_and_flagged.2.2.1 oneCellView hinv,
    no_cell_opened_and_flagged.2.2.2 oneCellView hinv⟩

/-- OR of values with disjoint binary support is addition. -/
lemma lor_disjoint {n a b : Nat} (ha : 2 ^ n ∣ a) (hb : b < 2 ^ n) : a ||| b = a + b := by
  apply Nat.eq_of_testBit_eq
  intro i
  obtain ⟨k, rfl⟩ := ha
  rw [Nat.testBit_lor]
  rcases Nat.lt_or_ge i n with hi | hi
  · simp only [Nat.testBit_to_div_mod]
    have h2 : (2 : ℕ) ^ n * k = 2 ^ i * (2 ^ (n - i) * k) := by
      rw [← Nat.mul_assoc, ← pow_add]
      congr 2
      omega
    rw [h2, Nat.mul_add_div (Nat.two_pow_pos i), Nat.mul_div_cancel_left _ (Nat.two_pow_pos i)]
    have h3 : (2 : ℕ) ^ (n - i) * k = 2 * (2 ^ (n - i - 1) * k) := by
      rw [← Nat.mul_assoc, ← pow_succ']
      congr 2
      omega
    rw [h3]
    have hx : 2 * (2 ^ (n - i - 1) * k) % 2 = 0 := Nat.mul_mod_right 2 _
    simp [Nat.add_mod, hx]
  · have hbi : b < 2 ^ i := lt_of_lt_of_le hb (Nat.pow_le_pow_right (by norm_num) hi)
    rw [Nat.testBit_eq_false_of_lt hbi]
    simp only [Nat.testBit_to_div_mod]
    have h2 : (2 : ℕ) ^ i = 2 ^ n * 2 ^ (i - n) := by
      rw [← pow_add]
      congr 1
      omega
    rw [h2, ← Nat.div_div_eq_div_mul, ← Nat.div_div_eq_div_mul,
      Nat.mul_add_div (Nat.two_pow_pos n), Nat.div_eq_of_lt hb,
      Nat.mul_div_cancel_left _ (Nat.two_pow_pos n)]
    simp

lemma land_1023 (v : Nat) : v &&& 1023 = v % 1024 := by
  have := Nat.and_pow_two_sub_one_eq_mod v 10
  simpa using this

lemma land_7 (v : Nat) : v &&& 7 = v % 8 := by
  have := Nat.and_pow_two_sub_one_eq_mod v 3
  simpa using this

lemma land_1 (v : Nat) : v &&& 1 = v % 2 := by
  have := Nat.and_pow_two_sub_one_eq_mod v 1
  simpa using this

lemma mul_two_pow_lt {d m k e : Nat} (hd : d < 2 ^ m) (he : k + m = e) :
    d * 2 ^ k < 2 ^ e := by
  subst he
  calc d * 2 ^ k < 2 ^ m * 2 ^ k := (Nat.mul_lt_mul_right (Nat.two_pow_pos k)).mpr hd
    _ = 2 ^ (k + m) := by rw [← pow_add, Nat.add_comm]

lemma to_bytes_length (w v : Nat) : (to_bytes w v).length = w := by
  simp [to_bytes]

lemma from_to_bytes_5 {v : Nat} (hv : v < 2 ^ 40) : from_bytes (to_bytes 5 v) = v := by
  have h5 : List.range 5 = [0, 1, 2, 3, 4] := by decide
  unfold to_bytes from_bytes
  rw [h5]
  simp only [List.map_cons, List.map_nil, List.foldl_cons, List.foldl_nil,
    Nat.shiftRight_eq_div_pow]
  norm_num
  omega

lemma from_to_bytes_3 {v : Nat} (hv : v < 2 ^ 24) : from_bytes (to_bytes 3 v) = v := by
  have h3 : List.range 3 = [0, 1, 2] := by decide
  unfold to_bytes from_bytes
  rw [h3]
  simp only [List.map_cons, List.map_nil, List.foldl_cons, List.foldl_nil,
    Nat.shiftRight_eq_div_pow]
  norm_num
  omega

lemma cell_flags_lt (c : Cell) : cell_flags c < 8 := by
  rcases c with ⟨o, mi, f, nb⟩
  cases o <;> cases mi <;> cases f <;> simp [cell_flags]

lemma cell_flags_decode (c : Cell) :
    (((cell_flags c >>> 2) &&& 1 != 0) = c.opened) ∧
    (((cell_flags c >>> 1) &&& 1 != 0) = c.mine) ∧
    ((cell_flags c &&& 1 != 0) = c.flagged) ∧
    (((cell_flags c >>> 1) &&& 1 = 1) ↔ c.mine = true) := by
  rcases c with ⟨o, mi, f, nb⟩
  cases o <;> cases mi <;> cases f <;>
    refine ⟨?_, ?_, ?_, ?_⟩ <;> simp [cell_flags]

lemma save_block_eq_pack (m : ModelState) (length n b : Nat) :
    save_block m length n b =
      (List.range 8).foldl
        (fun buffer j => buffer |||
          ((if 8 * b + j < n then
              cell_flags (m.minefield ((8 * b + j) / length) ((8 * b + j) % length))
            else 0) <<< (3 * (7 - j)))) 0 := by
  unfold save_block
  congr 1
  funext buffer j
  by_cases hc : 8 * b + j < n <;> simp [hc]

lemma pack8_sum (d : Nat → Nat) (hd : ∀ j, j < 8 → d j < 8) :
    (List.range 8).foldl (fun buffer j => buffer ||| (d j <<< (3 * (7 - j)))) 0 =
      d 0 * 2097152 + d 1 * 262144 + d 2 * 32768 + d 3 * 4096 + d 4 * 512 +
        d 5 * 64 + d 6 * 8 + d 7 := by
  have h8 : List.range 8 = [0, 1, 2, 3, 4, 5, 6, 7] := by decide
  have h1 := hd 1 (by norm_num)
  have h2 := hd 2 (by norm_num)
  have h3 := hd 3 (by norm_num)
  have h4 := hd 4 (by norm_num)
  have h5 := hd 5 (by norm_num)
  have h6 := hd 6 (by norm_num)
  have h7 := hd 7 (by norm_num)
  rw [h8]
  simp only [List.foldl_cons, List.foldl_nil, Nat.zero_or, Nat.shiftLeft_eq]
  norm_num
  have e1 : d 0 * 2097152 ||| d 1 * 262144 = d 0 * 2097152 + d 1 * 262144 :=
    lor_disjoint (n := 21) (Dvd.dvd.mul_left (by norm_num) _) (by omega)
  rw [e1]
  have e2 : d 0 * 2097152 + d 1 * 262144 ||| d 2 * 32768 =
      d 0 * 2097152 + d 1 * 262144 + d 2 * 32768 :=
    lor_disjoint (n := 18)
      (Dvd.dvd.add (Dvd.dvd.mul_left (by norm_num) _) (Dvd.dvd.mul_left (by norm_num) _))
      (by omega)
  rw [e2]
  have e3 : d 0 * 2097152 + d 1 * 262144 + d 2 * 32768 ||| d 3 * 4096 =
      d 0 * 2097152 + d 1 * 262144 + d 2 * 32768 + d 3 * 4096 :=
    lor_disjoint (n := 15)
      (Dvd.dvd.add (Dvd.dvd.add (Dvd.dvd.mul_left (by norm_num) _)
        (Dvd.dvd.mul_left (by norm_num) _)) (Dvd.dvd.mul_left (by norm_num) _))
      (by omega)
  rw [e3]
  have e4 : d 0 * 2097152 + d 1 * 262144 + d 2 * 32768 + d 3 * 4096 ||| d 4 * 512 =
      d 0 * 2097152 + d 1 * 262144 + d 2 * 32768 + d 3 * 4096 + d 4 * 512 :=
    lor_disjoint (n := 12)
      (Dvd.dvd.add (Dvd.dvd.add (Dvd.dvd.add (Dvd.dvd.mul_left (by norm_num) _)
        (Dvd.dvd.mul_left (by norm_num) _)) (Dvd.dvd.mul_left (by norm_num) _))
        (Dvd.dvd.mul_left (by norm_num) _))
      (by omega)
  rw [e4]
  have e5 : d 0 * 2097152 + d 1 * 262144 + d 2 * 32768 + d 3 * 4096 + d 4 * 512 |||
        d 5 * 64 =
      d 0 * 2097152 + d 1 * 262144 + d 2 * 32768 + d 3 * 4096 + d 4 * 512 + d 5 * 64 :=
    lor_disjoint (n := 9)
      (Dvd.dvd.add (Dvd.dvd.add (Dvd.dvd.add (Dvd.dvd.add
        (Dvd.dvd.mul_left (by norm_num) _) (Dvd.dvd.mul_left (by norm_num) _))
        (Dvd.dvd.mul_left (by norm_num) _)) (Dvd.dvd.mul_left (by norm_num) _))
        (Dvd.dvd.mul_left (by norm_num) _))
      (by omega)
  rw [e5]
  have e6 : d 0 * 2097152 + d 1 * 262144 + d 2 * 32768 + d 3 * 4096 + d 4 * 512 +
        d 5 * 64 ||| d 6 * 8 =
      d 0 * 2097152 + d 1 * 262144 + d 2 * 32768 + d 3 * 4096 + d 4 * 512 + d 5 * 64 +
        d 6 * 8 :=
    lor_disjoint (n := 6)
      (Dvd.dvd.add (Dvd.dvd.add (Dvd.dvd.add (Dvd.dvd.add (Dvd.dvd.add
        (Dvd.dvd.mul_left (by norm_num) _) (Dvd.dvd.mul_left (by norm_num) _))
        (Dvd.dvd.mul_left (by norm_num) _)) (Dvd.dvd.mul_left (by norm_num) _))
        (Dvd.dvd.mul_left (by norm_num) _)) (Dvd.dvd.mul_left (by norm_num) _))
      (by omega)
  rw [e6]
  exact lor_disjoint (n := 3)
    (Dvd.dvd.add (Dvd.dvd.add (Dvd.dvd.add (Dvd.dvd.add (Dvd.dvd.add (Dvd.dvd.add
      (Dvd.dvd.mul_left (by norm_num) _) (Dvd.dvd.mul_left (by norm_num) _))
      (Dvd.dvd.mul_left (by norm_num) _)) (Dvd.dvd.mul_left (by norm_num) _))
      (Dvd.dvd.mul_left (by norm_num) _)) (Dvd.dvd.mul_left (by norm_num) _))
      (Dvd.dvd.mul_left (by norm_num) _))
    (by omega)

lemma pack8_lt (d : Nat → Nat) (hd : ∀ j, j < 8 → d j < 8) :
    d 0 * 2097152 + d 1 * 262144 + d 2 * 32768 + d 3 * 4096 + d 4 * 512 +
      d 5 * 64 + d 6 * 8 + d 7 < 2 ^ 24 := by
  have h0 := hd 0 (by norm_num)
  have h1 := hd 1 (by norm_num)
  have h2 := hd 2 (by norm_num)
  have h3 := hd 3 (by norm_num)
  have h4 := hd 4 (by norm_num)
  have h5 := hd 5 (by norm_num)
  have h6 := hd 6 (by norm_num)
  have h7 := hd 7 (by norm_num)
  omega

lemma pack8_extract (d : Nat → Nat) (hd : ∀ j, j < 8 → d j < 8) (k : Nat) (hk : k < 8) :
    ((d 0 * 2097152 + d 1 * 262144 + d 2 * 32768 + d 3 * 4096 + d 4 * 512 +
        d 5 * 64 + d 6 * 8 + d 7) >>> (3 * (7 - k))) &&& 7 = d k := by
  have h0 := hd 0 (by norm_num)
  have h1 := hd 1 (by norm_num)
  have h2 := hd 2 (by norm_num)
  have h3 := hd 3 (by norm_num)
  have h4 := hd 4 (by norm_num)
  have h5 := hd 5 (by norm_num)
  have h6 := hd 6 (by norm_num)
  have h7 := hd 7 (by norm_num)
  rw [land_7, Nat.shiftRight_eq_div_pow]
  interval_cases k <;> norm_num <;> omega

lemma header_pack {a b c d : Nat} (ha : a < 1024) (hb : b < 1024) (hc : c < 1024)
    (hd : d < 1024) :
    ((a &&& 1023) <<< 30) ||| ((b &&& 1023) <<< 20) ||| ((c &&& 1023) <<< 10) |||
        (d &&& 1023) =
      a * 2 ^ 30 + b * 2 ^ 20 + c * 2 ^ 10 + d := by
  have ha' : a &&& 1023 = a := by rw [land_1023]; omega
  have hb' : b &&& 1023 = b := by rw [land_1023]; omega
  have hc' : c &&& 1023 = c := by rw [land_1023]; omega
  have hd' : d &&& 1023 = d := by rw [land_1023]; omega
  rw [ha', hb', hc', hd', Nat.shiftLeft_eq, Nat.shiftLeft_eq, Nat.shiftLeft_eq]
  have hlt : ∀ v : Nat, v < 1024 → v < 2 ^ 10 := by intro v hv; omega
  have e1 : a * 2 ^ 30 ||| b * 2 ^ 20 = a * 2 ^ 30 + b * 2 ^ 20 :=
    lor_disjoint (dvd_mul_left _ _) (mul_two_pow_lt (hlt b hb) (by norm_num))
  rw [e1]
  have e2 : a * 2 ^ 30 + b * 2 ^ 20 ||| c * 2 ^ 10 =
      a * 2 ^ 30 + b * 2 ^ 20 + c * 2 ^ 10 :=
    lor_disjoint (n := 20)
      (Dvd.dvd.add (Dvd.dvd.mul_left (pow_dvd_pow 2 (by norm_num)) _) (dvd_mul_left _ _))
      (mul_two_pow_lt (hlt c hc) (by norm_num))
  rw [e2]
  exact lor_disjoint (n := 10)
    (Dvd.dvd.add (Dvd.dvd.add (Dvd.dvd.mul_left (pow_dvd_pow 2 (by norm_num)) _)
      (Dvd.dvd.mul_left (pow_dvd_pow 2 (by norm_num)) _)) (dvd_mul_left _ _))
    (hlt d hd)

lemma header_extract {a b c d : Nat} (ha : a < 1024) (hb : b < 1024) (hc : c < 1024)
    (hd : d < 1024) :
    (a * 2 ^ 30 + b * 2 ^ 20 + c * 2 ^ 10 + d) &&& 1023 = d ∧
    ((a * 2 ^ 30 + b * 2 ^ 20 + c * 2 ^ 10 + d) >>> 10) &&& 1023 = c ∧
    ((a * 2 ^ 30 + b * 2 ^ 20 + c * 2 ^ 10 + d) >>> 20) &&& 1023 = b ∧
    ((a * 2 ^ 30 + b * 2 ^ 20 + c * 2 ^ 10 + d) >>> 30) &&& 1023 = a ∧
    a * 2 ^ 30 + b * 2 ^ 20 + c * 2 ^ 10 + d < 2 ^ 40 := by
  simp only [land_1023, Nat.shiftRight_eq_div_pow]
  norm_num
  omega

lemma save_header_take (m : ModelState) :
    (save_minefield m).take 5 =
      to_bytes 5 ((((m.difficulty.l - 1) &&& 0x3FF) <<< 30) |||
        (((m.difficulty.h - 1) &&& 0x3FF) <<< 20) |||
        ((m.hover_x &&& 0x3FF) <<< 10) ||| (m.hover_y &&& 0x3FF)) := by
  unfold save_minefield
  dsimp only
  rw [show (5 : Nat) = (to_bytes 5 ((((m.difficulty.l - 1) &&& 0x3FF) <<< 30) |||
      (((m.difficulty.h - 1) &&& 0x3FF) <<< 20) |||
      ((m.hover_x &&& 0x3FF) <<< 10) ||| (m.hover_y &&& 0x3FF))).length
    from (to_bytes_length _ _).symm]
  exact List.take_left _ _

lemma flatten_slice : ∀ (blocks : List Nat) (b : Nat) (hb : b < blocks.length),
    (((blocks.map (to_bytes 3)).flatten).drop (3 * b)).take 3 =
      to_bytes 3 (blocks.get ⟨b, hb⟩) := by
  intro blocks
  induction blocks with
  | nil =>
    intro b hb
    exact absurd hb (Nat.not_lt_zero b)
  | cons v blocks ih =>
    intro b hb
    cases b with
    | zero =>
      simp only [List.map_cons, List.flatten_cons, Nat.mul_zero, List.drop_zero]
      rw [show (3 : Nat) = (to_bytes 3 v).length from (to_bytes_length _ _).symm]
      exact List.take_left _ _
    | succ b =>
      simp only [List.map_cons, List.flatten_cons]
      rw [show 3 * (b + 1) = (to_bytes 3 v).length + 3 * b from by
        rw [to_bytes_length]; ring]
      rw [List.drop_append]
      exact ih b (Nat.lt_of_succ_lt_succ hb)

lemma save_block_slice (m : ModelState) (b : Nat)
    (hb : b < (m.difficulty.l * m.difficulty.h + 7) / 8) :
    ((save_minefield m).drop (5 + 3 * b)).take 3 =
      to_bytes 3 (save_block m m.difficulty.l (m.difficulty.l * m.difficulty.h) b) := by
  unfold save_minefield
  dsimp only
  rw [show 5 + 3 * b = (to_bytes 5 ((((m.difficulty.l - 1) &&& 0x3FF) <<< 30) |||
      (((m.difficulty.h - 1) &&& 0x3FF) <<< 20) |||
      ((m.hover_x &&& 0x3FF) <<< 10) ||| (m.hover_y &&& 0x3FF))).length + 3 * b
    from by rw [to_bytes_length]]
  rw [List.drop_append]
  rw [show (List.range ((m.difficulty.l * m.difficulty.h + 7) / 8)).map (fun b =>
      to_bytes 3 (save_block m m.difficulty.l (m.difficulty.l * m.difficulty.h) b)) =
      ((List.range ((m.difficulty.l * m.difficulty.h + 7) / 8)).map
        (save_block m m.difficulty.l (m.difficulty.l * m.difficulty.h))).map (to_bytes 3)
    from by rw [List.map_map]; rfl]
  have hb' : b < ((List.range ((m.difficulty.l * m.difficulty.h + 7) / 8)).map
      (save_block m m.difficulty.l (m.difficulty.l * m.difficulty.h))).length := by
    simpa using hb
  rw [flatten_slice _ b hb']
  congr 1
  rw [List.get_map]
  congr 1
  exact List.get_range _ _

/-- Reading back the 3-bit record of cell `i` from the saved byte stream
recovers `cell_flags` of the saved cell. -/
lemma save_cell_record (m : ModelState) (i : Nat)
    (hi : i < m.difficulty.l * m.difficulty.h) :
    recFlags (save_minefield m) i =
      cell_flags (m.minefield (i / m.difficulty.l) (i % m.difficulty.l)) := by
  have hdiv : i / 8 < (m.difficulty.l * m.difficulty.h + 7) / 8 := by omega
  unfold recFlags
  rw [save_block_slice m (i / 8) hdiv]
  set n := m.difficulty.l * m.difficulty.h with hn
  set d : Nat → Nat := fun j => if 8 * (i / 8) + j < n then
    cell_flags (m.minefield ((8 * (i / 8) + j) / m.difficulty.l)
      ((8 * (i / 8) + j) % m.difficulty.l)) else 0 with hd
  have hdlt : ∀ j, j < 8 → d j < 8 := by
    intro j _
    rw [hd]
    by_cases hc : 8 * (i / 8) + j < n
    · simpa [hc] using cell_flags_lt _
    · simp [hc]
  have hblock : save_block m m.difficulty.l n (i / 8) =
      d 0 * 2097152 + d 1 * 262144 + d 2 * 32768 + d 3 * 4096 + d 4 * 512 +
        d 5 * 64 + d 6 * 8 + d 7 := by
    rw [save_block_eq_pack]
    rw [show (fun (buffer j : Nat) => buffer |||
        ((if 8 * (i / 8) + j < n then
            cell_flags (m.minefield ((8 * (i / 8) + j) / m.difficulty.l)
              ((8 * (i / 8) + j) % m.difficulty.l))
          else 0) <<< (3 * (7 - j)))) =
        fun (buffer j : Nat) => buffer ||| (d j <<< (3 * (7 - j))) from by
      funext buffer j
      rw [hd]]
    exact pack8_sum d hdlt
  rw [hblock, from_to_bytes_3 (pack8_lt d hdlt)]
  have hext := pack8_extract d hdlt (i % 8) (Nat.mod_lt i (by norm_num))
  rw [hext]
  have hi8 : 8 * (i / 8) + i % 8 = i := by omega
  show (if 8 * (i / 8) + i % 8 < n then
      cell_flags (m.minefield ((8 * (i / 8) + i % 8) / m.difficulty.l)
        ((8 * (i / 8) + i % 8) % m.difficulty.l))
    else 0) = _
  rw [hi8, if_pos hi]

lemma pos_unique {length x y : Nat} (hl : 0 < length) (hx : x < length) :
    (y * length + x) / length = y ∧ (y * length + x) % length = x := by
  constructor
  · rw [Nat.add_comm, Nat.mul_comm, Nat.add_mul_div_left _ _ hl, Nat.div_eq_of_lt hx,
      Nat.zero_add]
  · rw [Nat.add_comm, Nat.add_mul_mod_self_right, Nat.mod_eq_of_lt hx]

/-- What `load_minefield`'s cell loop has built after `k` iterations:
every cell's number counts the mines decoded so far whose increment box
contains it, processed cells carry their decoded record bits, and
not-yet-processed or out-of-range cells are still empty. -/
lemma load_fold_spec (file : List Nat) (length height : Nat) (hl : 0 < length) :
    ∀ k : Nat,
      (∀ x y, ((load_fold file length height k).1 y x).number =
        ∑ j ∈ Finset.range k,
          if (recFlags file j >>> 1) &&& 0x1 = 1 ∧
              inBox (j % length) (j / length) length height x y then 1 else 0) ∧
      (∀ x y, x < length →
        (y * length + x < k →
          ((load_fold file length height k).1 y x).opened
              = ((recFlags file (y * length + x) >>> 2) &&& 0x1 != 0) ∧
          ((load_fold file length height k).1 y x).mine
              = ((recFlags file (y * length + x) >>> 1) &&& 0x1 != 0) ∧
          ((load_fold file length height k).1 y x).flagged
              = (recFlags file (y * length + x) &&& 0x1 != 0)) ∧
        (k ≤ y * length + x →
          ((load_fold file length height k).1 y x).opened = false ∧
          ((load_fold file length height k).1 y x).mine = false ∧
          ((load_fold file length height k).1 y x).flagged = false)) ∧
      (∀ x y, length ≤ x → (load_fold file length height k).1 y x = mk_mt_cell) := by
  intro k
  induction k with
  | zero =>
    refine ⟨fun x y => by simp [load_fold, mk_mt_minefield, mk_mt_cell], ?_, ?_⟩
    · intro x y _
      exact ⟨fun hlt => absurd hlt (Nat.not_lt_zero _), fun _ => ⟨rfl, rfl, rfl⟩⟩
    · intro x y _
      rfl
  | succ k ih =>
    obtain ⟨ihnum, ihbits, ihout⟩ := ih
    have hstep : load_fold file length height (k + 1) =
        load_cell_step file length height (load_fold file length height k) k := by
      unfold load_fold
      rw [List.range_succ, List.foldl_append, List.foldl_cons, List.foldl_nil]
    set G : Grid := (load_fold file length height k).1 with hG
    set C : Cell := ⟨(recFlags file k >>> 2) &&& 0x1 != 0,
      (recFlags file k >>> 1) &&& 0x1 != 0,
      recFlags file k &&& 0x1 != 0, (G (k / length) (k % length)).number⟩ with hC
    have hGrid : (load_fold file length height (k + 1)).1 =
        if (recFlags file k >>> 1) &&& 0x1 = 1 then
          increment_numbers (setCell G (k / length) (k % length) C)
            (k % length) (k / length) 0 0 length height
        else setCell G (k / length) (k % length) C := by
      rw [hstep]
      rfl
    have hxk : k % length < length := Nat.mod_lt _ hl
    have hk_eq : (k / length) * length + (k % length) = k := by
      have h := Nat.div_add_mod k length
      rw [Nat.mul_comm] at h
      exact h
    have hpoint : ∀ y x, (load_fold file length height (k + 1)).1 y x =
        (if (recFlags file k >>> 1) &&& 0x1 = 1 ∧
            inBox (k % length) (k / length) length height x y then
          { (if y = k / length ∧ x = k % length then C else G y x) with
            number := (if y = k / length ∧ x = k % length then C else G y x).number + 1 }
        else (if y = k / length ∧ x = k % length then C else G y x)) := by
      intro y x
      rw [hGrid]
      by_cases hmine : (recFlags file k >>> 1) &&& 0x1 = 1
      · rw [if_pos hmine, increment_numbers_eval, setCell_eval]
        by_cases hb : inBox (k % length) (k / length) length height x y
        · rw [if_pos hb]
          rw [if_pos (show (recFlags file k >>> 1) &&& 0x1 = 1 ∧
            inBox (k % length) (k / length) length height x y from ⟨hmine, hb⟩)]
        · rw [if_neg hb]
          rw [if_neg (show ¬((recFlags file k >>> 1) &&& 0x1 = 1 ∧
            inBox (k % length) (k / length) length height x y) from fun hcc => hb hcc.2)]
      · rw [if_neg hmine, setCell_eval]
        rw [if_neg (show ¬((recFlags file k >>> 1) &&& 0x1 = 1 ∧
          inBox (k % length) (k / length) length height x y) from fun hcc => hmine hcc.1)]
    have hbase_num : ∀ y x,
        (if y = k / length ∧ x = k % length then C else G y x).number = (G y x).number := by
      intro y x
      by_cases hc : y = k / length ∧ x = k % length
      · obtain ⟨rfl, rfl⟩ := hc
        rw [if_pos ⟨rfl, rfl⟩, hC]
      · rw [if_neg hc]
    have hopened : ∀ y x, ((load_fold file length height (k + 1)).1 y x).opened =
        (if y = k / length ∧ x = k % length then C else G y x).opened := by
      intro y x
      rw [hpoint y x]
      by_cases hcond : (recFlags file k >>> 1) &&& 0x1 = 1 ∧
          inBox (k % length) (k / length) length height x y
      · rw [if_pos hcond]
      · rw [if_neg hcond]
    have hmine2 : ∀ y x, ((load_fold file length height (k + 1)).1 y x).mine =
        (if y = k / length ∧ x = k % length then C else G y x).mine := by
      intro y x
      rw [hpoint y x]
      by_cases hcond : (recFlags file k >>> 1) &&& 0x1 = 1 ∧
          inBox (k % length) (k / length) length height x y
      · rw [if_pos hcond]
      · rw [if_neg hcond]
    have hflag2 : ∀ y x, ((load_fold file length height (k + 1)).1 y x).flagged =
        (if y = k / length ∧ x = k % length then C else G y x).flagged := by
      intro y x
      rw [hpoint y x]
      by_cases hcond : (recFlags file k >>> 1) &&& 0x1 = 1 ∧
          inBox (k % length) (k / length) length height x y
      · rw [if_pos hcond]
      · rw [if_neg hcond]
    have hnum2 : ∀ y x, ((load_fold file length height (k + 1)).1 y x).number =
        (G y x).number + (if (recFlags file k >>> 1) &&& 0x1 = 1 ∧
          inBox (k % length) (k / length) length height x y then 1 else 0) := by
      intro y x
      rw [hpoint y x]
      by_cases hcond : (recFlags file k >>> 1) &&& 0x1 = 1 ∧
          inBox (k % length) (k / length) length height x y
      · rw [if_pos hcond, if_pos hcond]
        show (if y = k / length ∧ x = k % length then C else G y x).number + 1 = _
        rw [hbase_num y x]
      · rw [if_neg hcond, if_neg hcond, Nat.add_zero]
        exact hbase_num y x
    refine ⟨?_, ?_, ?_⟩
    · intro x y
      rw [hnum2 y x, ihnum x y, Finset.sum_range_succ]
    · intro x y hx
      constructor
      · intro hlt
        by_cases hik : y * length + x = k
        · have hy : y = k / length := by rw [← hik]; exact ((pos_unique hl hx).1).symm
          have hx2 : x = k % length := by rw [← hik]; exact ((pos_unique hl hx).2).symm
          rw [hopened y x, hmine2 y x, hflag2 y x, if_pos ⟨hy, hx2⟩, hik]
          exact ⟨rfl, rfl, rfl⟩
        · have hik' : y * length + x < k := by omega
          have hc : ¬(y = k / length ∧ x = k % length) := by
            intro hc
            apply hik
            rw [hc.1, hc.2, hk_eq]
          rw [hopened y x, hmine2 y x, hflag2 y x, if_neg hc]
          exact (ihbits x y hx).1 hik'
      · intro hge
        have hc : ¬(y = k / length ∧ x = k % length) := by
          intro hc
          have : y * length + x = k := by rw [hc.1, hc.2, hk_eq]
          omega
        rw [hopened y x, hmine2 y x, hflag2 y x, if_neg hc]
        exact (ihbits x y hx).2 (by omega)
    · intro x y hxge
      have hc : ¬(y = k / length ∧ x = k % length) := by
        intro hc
        omega
      have hbox : ¬inBox (k % length) (k / length) length height x y := by
        unfold inBox
        omega
      rw [hpoint y x, if_neg (fun hcc => hbox hcc.2), if_neg hc]
      exact ihout x y hxge

lemma idx_lt {l h x y : Nat} (hx : x < l) (hy : y < h) : y * l + x < l * h := by
  calc y * l + x < y * l + l := by omega
    _ = (y + 1) * l := by ring
    _ ≤ h * l := Nat.mul_le_mul_right l hy
    _ = l * h := Nat.mul_comm h l

lemma sum_range_mul_eq_double (l : Nat) (f : Nat → Nat → Nat) :
    ∀ h, (∑ j ∈ Finset.range (l * h), f (j % l) (j / l)) =
      ∑ y ∈ Finset.range h, ∑ x ∈ Finset.range l, f x y := by
  intro h
  induction h with
  | zero => simp
  | succ h ih =>
    have hmul : l * (h + 1) = l * h + l := by ring
    rw [hmul, Finset.sum_range_add, ih, Finset.sum_range_succ]
    congr 1
    apply Finset.sum_congr rfl
    intro x hx
    have hx' := Finset.mem_range.1 hx
    have h1 : (l * h + x) % l = x := by
      rw [Nat.add_comm, Nat.mul_comm, Nat.add_mul_mod_self_right, Nat.mod_eq_of_lt hx']
    have h2 : (l * h + x) / l = h := by
      have hl : 0 < l := by omega
      rw [Nat.add_comm, Nat.mul_comm, Nat.mul_comm h l, Nat.add_mul_div_left _ _ hl,
        Nat.div_eq_of_lt hx', Nat.zero_add]
    rw [h1, h2]

lemma sum_center_mineCountIncl (g : Grid) {l h x y : Nat} (hx : x < l) (hy : y < h) :
    (∑ y' ∈ Finset.range h, ∑ x' ∈ Finset.range l,
      if (g y' x').mine = true ∧ inBox x' y' l h x y then 1 else 0) =
      mineCountIncl g l h x y := by
  rw [mineCountIncl]
  apply Finset.sum_congr rfl
  intro y' hy'
  apply Finset.sum_congr rfl
  intro x' hx'
  have hx' := Finset.mem_range.1 hx'
  have hy' := Finset.mem_range.1 hy'
  have hiff : (g y' x').mine = true ∧ inBox x' y' l h x y ↔
      inBox x y l h x' y' ∧ (g y' x').mine = true := by
    rw [inBox_symm hx hy hx' hy']
    exact and_comm
  exact if_congr hiff rfl rfl

/-- C2: the save/load round trip.  For a field with dimensions in
1..1024 and an in-bounds cursor, loading a saved field restores the
dimensions, the hover position and every in-bounds cell's
`opened`/`mine`/`flagged` bits; and whenever the original numbers are
consistent with the mine layout (as generation and loading always leave
them) the recomputed `number` values equal the original field's. -/
theorem save_load_roundtrip (m m' : ModelState)
    (hl1 : 1 ≤ m.difficulty.l) (hl2 : m.difficulty.l ≤ 1024)
    (hh1 : 1 ≤ m.difficulty.h) (hh2 : m.difficulty.h ≤ 1024)
    (hhx : m.hover_x < m.difficulty.l) (hhy : m.hover_y < m.difficulty.h) :
    (load_minefield (some (save_minefield m)) m').difficulty.l = m.difficulty.l ∧
    (load_minefield (some (save_minefield m)) m').difficulty.h = m.difficulty.h ∧
    (load_minefield (some (save_minefield m)) m').hover_x = m.hover_x ∧
    (load_minefield (some (save_minefield m)) m').hover_y = m.hover_y ∧
    (∀ x, x < m.difficulty.l → ∀ y, y < m.difficulty.h →
      ((load_minefield (some (save_minefield m)) m').minefield y x).opened
          = (m.minefield y x).opened ∧
      ((load_minefield (some (save_minefield m)) m').minefield y x).mine
          = (m.minefield y x).mine ∧
      ((load_minefield (some (save_minefield m)) m').minefield y x).flagged
          = (m.minefield y x).flagged) ∧
    ((∀ x, x < m.difficulty.l → ∀ y, y < m.difficulty.h →
        (m.minefield y x).number =
          mineCountIncl m.minefield m.difficulty.l m.difficulty.h x y) →
      ∀ x, x < m.difficulty.l → ∀ y, y < m.difficulty.h →
        ((load_minefield (some (save_minefield m)) m').minefield y x).number
          = (m.minefield y x).number) := by
  set l := m.difficulty.l with hldef
  set h := m.difficulty.h with hhdef
  set file := save_minefield m with hfile
  have hcomb : from_bytes (file.take 5) =
      (l - 1) * 2 ^ 30 + (h - 1) * 2 ^ 20 + m.hover_x * 2 ^ 10 + m.hover_y := by
    rw [hfile, save_header_take,
      header_pack (by omega) (by omega) (by omega) (by omega)]
    exact from_to_bytes_5
      (header_extract (a := l - 1) (b := h - 1) (c := m.hover_x) (d := m.hover_y)
        (by omega) (by omega) (by omega) (by omega)).2.2.2.2
  have hext := header_extract (a := l - 1) (b := h - 1) (c := m.hover_x) (d := m.hover_y)
    (by omega) (by omega) (by omega) (by omega)
  have hlen : ((from_bytes (file.take 5) >>> 30) &&& 0x3FF) + 1 = l := by
    rw [hcomb, hext.2.2.2.1]
    omega
  have hht : ((from_bytes (file.take 5) >>> 20) &&& 0x3FF) + 1 = h := by
    rw [hcomb, hext.2.2.1]
    omega
  have hmf : (load_minefield (some file) m').minefield =
      (load_fold file l h (l * h)).1 := by
    show (load_fold file (((from_bytes (file.take 5) >>> 30) &&& 0x3FF) + 1)
        (((from_bytes (file.take 5) >>> 20) &&& 0x3FF) + 1)
        ((((from_bytes (file.take 5) >>> 30) &&& 0x3FF) + 1) *
          (((from_bytes (file.take 5) >>> 20) &&& 0x3FF) + 1))).1 = _
    rw [hlen, hht]
  obtain ⟨hnums, hbits, _⟩ := load_fold_spec file l h (by omega) (l * h)
  refine ⟨?_, ?_, ?_, ?_, ?_, ?_⟩
  · show ((from_bytes (file.take 5) >>> 30) &&& 0x3FF) + 1 = l
    exact hlen
  · show ((from_bytes (file.take 5) >>> 20) &&& 0x3FF) + 1 = h
    exact hht
  · show (from_bytes (file.take 5) >>> 10) &&& 0x3FF = m.hover_x
    rw [hcomb]
    exact hext.2.1
  · show from_bytes (file.take 5) &&& 0x3FF = m.hover_y
    rw [hcomb]
    exact hext.1
  · intro x hx y hy
    have hi : y * l + x < l * h := idx_lt hx hy
    have hdiv := pos_unique (x := x) (y := y) (by omega) hx
    have hrec : recFlags file (y * l + x) = cell_flags (m.minefield y x) := by
      rw [hfile, save_cell_record m (y * l + x) hi, hdiv.1, hdiv.2]
    obtain ⟨hop, hmi, hfl⟩ := (hbits x y hx).1 hi
    have hdec := cell_flags_decode (m.minefield y x)
    refine ⟨?_, ?_, ?_⟩
    · rw [hmf, hop, hrec]
      exact hdec.1
    · rw [hmf, hmi, hrec]
      exact hdec.2.1
    · rw [hmf, hfl, hrec]
      exact hdec.2.2.1
  · intro hnum x hx y hy
    rw [hmf, hnums x y]
    have hcong : ∀ j ∈ Finset.range (l * h),
        (if (recFlags file j >>> 1) &&& 0x1 = 1 ∧
            inBox (j % l) (j / l) l h x y then (1 : Nat) else 0) =
          (if (m.minefield (j / l) (j % l)).mine = true ∧
            inBox (j % l) (j / l) l h x y then 1 else 0) := by
      intro j hj
      have hj' := Finset.mem_range.1 hj
      have hrecj : recFlags file j = cell_flags (m.minefield (j / l) (j % l)) := by
        rw [hfile]
        exact save_cell_record m j hj'
      exact if_congr (by
        rw [hrecj]
        exact and_congr_left fun _ =>
          (cell_flags_decode (m.minefield (j / l) (j % l))).2.2.2) rfl rfl
    rw [Finset.sum_congr rfl hcong]
    rw [sum_range_mul_eq_double l
      (fun x' y' => if (m.minefield y' x').mine = true ∧ inBox x' y' l h x y then 1 else 0) h]
    rw [sum_center_mineCountIncl m.minefield hx hy]
    exact (hnum x hx y hy).symm

/-- Witness for C2 on the concrete 2×2 one-mine field. -/
theorem save_load_roundtrip_witness :
    (load_minefield (some (save_minefield twoByTwoModel)) twoByTwoModel).hover_x =
      twoByTwoModel.hover_x ∧
    (load_minefield (some (save_minefield twoByTwoModel)) twoByTwoModel).difficulty.l =
      twoByTwoModel.difficulty.l := by
  have hrt := save_load_roundtrip twoByTwoModel twoByTwoModel (by decide) (by decide)
    (by decide) (by decide) (by decide) (by decide)
  exact ⟨hrt.2.2.1, hrt.1⟩

/-- C6: the save header is 5 bytes packing, MSB first, the four 10-bit
fields `length-1`, `height-1`, `hover_x`, `hover_y` in that order (its
40-bit big-endian value is the corresponding weighted sum), and
`load_minefield`'s header parsing inverts that layout exactly. -/
theorem save_header_layout (m : ModelState)
    (hl1 : 1 ≤ m.difficulty.l) (hl2 : m.difficulty.l ≤ 1024)
    (hh1 : 1 ≤ m.difficulty.h) (hh2 : m.difficulty.h ≤ 1024)
    (hhx : m.hover_x < 1024) (hhy : m.hover_y < 1024) :
    (save_minefield m).take 5 =
      to_bytes 5 ((m.difficulty.l - 1) * 2 ^ 30 + (m.difficulty.h - 1) * 2 ^ 20 +
        m.hover_x * 2 ^ 10 + m.hover_y) ∧
    ((save_minefield m).take 5).length = 5 ∧
    from_bytes ((save_minefield m).take 5) &&& 0x3FF = m.hover_y ∧
    (from_bytes ((save_minefield m).take 5) >>> 10) &&& 0x3FF = m.hover_x ∧
    ((from_bytes ((save_minefield m).take 5) >>> 20) &&& 0x3FF) + 1 = m.difficulty.h ∧
    ((from_bytes ((save_minefield m).take 5) >>> 30) &&& 0x3FF) + 1 = m.difficulty.l := by
  have hext := header_extract (a := m.difficulty.l - 1) (b := m.difficulty.h - 1)
    (c := m.hover_x) (d := m.hover_y) (by omega) (by omega) (by omega) (by omega)
  have htake : (save_minefield m).take 5 =
      to_bytes 5 ((m.difficulty.l - 1) * 2 ^ 30 + (m.difficulty.h - 1) * 2 ^ 20 +
        m.hover_x * 2 ^ 10 + m.hover_y) := by
    rw [save_header_take, header_pack (by omega) (by omega) (by omega) (by omega)]
  have hfrom : from_bytes ((save_minefield m).take 5) =
      (m.difficulty.l - 1) * 2 ^ 30 + (m.difficulty.h - 1) * 2 ^ 20 +
        m.hover_x * 2 ^ 10 + m.hover_y := by
    rw [htake]
    exact from_to_bytes_5 hext.2.2.2.2
  refine ⟨htake, ?_, ?_, ?_, ?_, ?_⟩
  · rw [htake, to_bytes_length]
  · rw [hfrom]
    exact hext.1
  · rw [hfrom]
    exact hext.2.1
  · rw [hfrom, hext.2.2.1]
    omega
  · rw [hfrom, hext.2.2.2.1]
    omega

/-- Witness for C6 on the 2×2 field with the cursor at `(0, 0)`: the
header's 40-bit value is `0b0000000001_0000000001_0000000000_0000000000`
= `2^30 + 2^20`, and the load-side extraction recovers the fields. -/
theorem save_header_layout_witness :
    from_bytes ((save_minefield twoByTwoModel).take 5) &&& 0x3FF =
      twoByTwoModel.hover_y ∧
    ((from_bytes ((save_minefield twoByTwoModel).take 5) >>> 30) &&& 0x3FF) + 1 =
      twoByTwoModel.difficulty.l ∧
    from_bytes ((save_minefield twoByTwoModel).take 5) = 2 ^ 30 + 2 ^ 20 := by
  have hh := save_header_layout twoByTwoModel (by decide) (by decide) (by decide)
    (by decide) (by decide) (by decide)
  exact ⟨hh.2.2.1, hh.2.2.2.2.2, by decide⟩

/-- C7: the density `load_minefield` reconstructs follows the source's
`(num_mines * 100) // length * height`, which by operator precedence is
`((num_mines * 100) // length) * height`, not the intended percentage
`(num_mines * 100) // (length * height)`: loading a saved 2×2 field with
1 mine yields `difficulty.d = 100` while the intended formula gives 25. -/
theorem load_density_precedence_bug :
    (load_minefield (some (save_minefield twoByTwoModel)) twoByTwoModel).num_mines = 1 ∧
    (load_minefield (some (save_minefield twoByTwoModel)) twoByTwoModel).difficulty.d
      = 100 ∧
    1 * 100 / (2 * 2) = 25 :=
  ⟨by decide, by decide, by decide⟩

/-- C8 (amended): calling `load_minefield` with no save file present is a
silent no-op: it returns normally and leaves the model state unchanged. -/
theorem load_no_save_noop : ∀ m : ModelState, load_minefield none m = m :=
  fun _ => rfl

/-- Counterexample to C8 as stated: with no save file, `load_minefield`
returns normally with the model unchanged — it does not report a
`NotFound` (or any) error to the caller. -/
theorem load_no_save_cex : load_minefield none twoByTwoModel = twoByTwoModel := rfl

end Minesweeper
